import Mathlib

/-! qjson: a dynamic JSON value wrapper (Go), embedded in Lean

The Go package keeps every JSON value in an `interface{}`; arrays and objects
are reached through pointers (`*jsonArray`, `*jsonObject`) so that a handle
obtained by navigation aliases the container it came from.  The embedding keeps
this: containers live in an explicit heap, pointers are addresses into it, and
every method takes the heap and returns the heap it leaves behind.

Conventions of the embedding
* target platform: 64-bit (`int` is 64 bits wide, `strconv.IntSize = 64`);
* a Go result pair `(T, error)` is `Except Error T` where no caller reads the
  value next to a non-nil error, and a pair `T × Option Error` otherwise;
* a method that may mutate returns the heap it leaves; a run-time panic is
  `Except.error` with a `Panic`;
* Go strings are modelled by Lean strings;
* a nil `*[]interface{}` or `*map[string]interface{}` is a value of its own
  (`nilSlicePtr`, `nilMapPtr`), and dereferencing it panics; for `*jsonArray`
  and `*jsonObject`, dereferencing an address without a cell stands for the
  nil dereference and panics.
-/

namespace qjson

/-! ## Values -/

/-- An IEEE-754 binary64 number, kept as its 64-bit pattern. -/
structure Float64 where
  bits : Nat
  deriving DecidableEq, Repr

/-- The dynamic values an `interface{}` of the package can hold.
`int` stands for `int, int8, int16, int32, int64` (already widened by
`qutils.SafeInt64`), `uint` for the unsigned kinds and `uintptr`, `float` for
`float32, float64`; `jsonArray p` and `jsonObject p` are the pointers
`*jsonArray` and `*jsonObject`; `slice`, `slicePtr`, `map`, `mapPtr` are the raw
generic containers `[]interface{}`, `*[]interface{}`, `map[string]interface{}`
and `*map[string]interface{}` (a raw map is listed in the order `range` visits
it), the two pointers being non-nil; `nilSlicePtr` and `nilMapPtr` are the nil
pointers of type `*[]interface{}` and `*map[string]interface{}`; `other` is a
value of any other dynamic type. -/
inductive Iface where
  | nil
  | bool (b : Bool)
  | string (s : String)
  | number (s : String)
  | int (i : Int)
  | uint (u : Nat)
  | float (f : Float64)
  | jsonArray (p : Nat)
  | jsonObject (p : Nat)
  | slice (xs : List Iface)
  | slicePtr (xs : List Iface)
  | map (m : List (String × Iface))
  | mapPtr (m : List (String × Iface))
  | nilSlicePtr
  | nilMapPtr
  | other (tag : String)

/-- The heap: the cells behind `*jsonArray` and `*jsonObject` pointers. A
`jsonObject` cell is a Go map, kept as an association list without repeated
keys. -/
structure Heap where
  arrays : List (List Iface)
  objects : List (List (String × Iface))

/-- Run-time panics. -/
inductive Panic where
  | nilDereference
  | indexOutOfRange
  deriving DecidableEq, Repr

/-- Go `error` values produced by the package and by `strconv`. -/
inductive Error where
  | msg (text : String)
  | numSyntax (fn : String) (num : String)
  | numRange (fn : String) (num : String)
  | numBase (fn : String) (num : String)
  | numBitSize (fn : String) (num : String)
  deriving DecidableEq, Repr

/-- The struct `QJson`: one field, `data interface{}`. -/
structure QJson where
  data : Iface

/-! ## Go maps as association lists -/

/-- Map read `m[key]` in its two-result form. -/
def mapGet (m : List (String × Iface)) (key : String) : Option Iface :=
  match m with
  | [] => none
  | (k, v) :: rest => if k = key then some v else mapGet rest key

/-- Map write `m[key] = val`: an existing entry is overwritten in place, a new
key is added. -/
def mapSet (m : List (String × Iface)) (key : String) (val : Iface) :
    List (String × Iface) :=
  match m with
  | [] => [(key, val)]
  | (k, v) :: rest =>
    if k = key then (key, val) :: rest else (k, v) :: mapSet rest key val

/-! ## Heap primitives -/

/-- Allocation `&jsonArray{}`. -/
def Heap.newArray (σ : Heap) : Heap × Nat :=
  ({ σ with arrays := σ.arrays ++ [[]] }, σ.arrays.length)

/-- Allocation `&jsonObject{}`. -/
def Heap.newObject (σ : Heap) : Heap × Nat :=
  ({ σ with objects := σ.objects ++ [[]] }, σ.objects.length)

/-- Method `(*jsonArray).Add`: `*this = append(*this, val)`. -/
def jsonArray.Add (σ : Heap) (this : Nat) (val : Iface) : Except Panic Heap :=
  match σ.arrays[this]? with
  | none => .error .nilDereference
  | some xs => .ok { σ with arrays := σ.arrays.set this (xs ++ [val]) }

/-- Method `(*jsonArray).Get`: the guard is `len(*this) > index` and nothing
else, so the indexing `(*this)[index]` is reached for every smaller `index`. -/
def jsonArray.Get (σ : Heap) (this : Nat) (index : Int) :
    Except Panic (Iface × Bool) :=
  match σ.arrays[this]? with
  | none => .error .nilDereference
  | some xs =>
    if (xs.length : Int) > index then
      if index < 0 then .error .indexOutOfRange
      else
        match xs[index.toNat]? with
        | some v => .ok (v, true)
        | none => .error .indexOutOfRange
    else .ok (.nil, false)

/-- Method `(*jsonArray).Last`. -/
def jsonArray.Last (σ : Heap) (this : Nat) : Except Panic (Iface × Bool) :=
  match σ.arrays[this]? with
  | none => .error .nilDereference
  | some xs =>
    let l := xs.length
    if l > 0 then
      match xs[l - 1]? with
      | some v => .ok (v, true)
      | none => .error .indexOutOfRange
    else .ok (.nil, false)

/-- Method `(*jsonObject).Add`: `(*this)[key] = val`. -/
def jsonObject.Add (σ : Heap) (this : Nat) (key : String) (val : Iface) :
    Except Panic Heap :=
  match σ.objects[this]? with
  | none => .error .nilDereference
  | some m => .ok { σ with objects := σ.objects.set this (mapSet m key val) }

/-- Method `(*jsonObject).Get`: `val, b = (*this)[key]`. -/
def jsonObject.Get (σ : Heap) (this : Nat) (key : String) :
    Except Panic (Iface × Bool) :=
  match σ.objects[this]? with
  | none => .error .nilDereference
  | some m =>
    match mapGet m key with
    | some v => .ok (v, true)
    | none => .ok (.nil, false)

/-! ## Normalization -/

mutual
/-- The type switch shared by `NewjsonArray`, `NewjsonObject`, `ArrayAdd` and
`ObjectAdd`: the value that is handed to `Add` for `item`. A raw slice (or a
pointer to one) goes through `NewjsonArray`, a raw map (or a pointer to one)
through `NewjsonObject`, anything else is passed on as it is. The pointer
cases evaluate `*val` for the call, which panics on a nil pointer. -/
def wrap (σ : Heap) : Iface → Except Panic (Heap × Iface)
  | .slice val =>
    match arrayLoop (σ.newArray).1 (σ.newArray).2 val with
    | .ok σ1 => .ok (σ1, .jsonArray (σ.newArray).2)
    | .error e => .error e
  | .slicePtr val =>
    match arrayLoop (σ.newArray).1 (σ.newArray).2 val with
    | .ok σ1 => .ok (σ1, .jsonArray (σ.newArray).2)
    | .error e => .error e
  | .map val =>
    match objectLoop (σ.newObject).1 (σ.newObject).2 val with
    | .ok σ1 => .ok (σ1, .jsonObject (σ.newObject).2)
    | .error e => .error e
  | .mapPtr val =>
    match objectLoop (σ.newObject).1 (σ.newObject).2 val with
    | .ok σ1 => .ok (σ1, .jsonObject (σ.newObject).2)
    | .error e => .error e
  | .nilSlicePtr => .error .nilDereference
  | .nilMapPtr => .error .nilDereference
  | .nil => .ok (σ, .nil)
  | .bool b => .ok (σ, .bool b)
  | .string s => .ok (σ, .string s)
  | .number s => .ok (σ, .number s)
  | .int i => .ok (σ, .int i)
  | .uint u => .ok (σ, .uint u)
  | .float f => .ok (σ, .float f)
  | .jsonArray p => .ok (σ, .jsonArray p)
  | .jsonObject p => .ok (σ, .jsonObject p)
  | .other t => .ok (σ, .other t)
/-- The loop `for _, item := range data` of `NewjsonArray`, filling `arr`. -/
def arrayLoop (σ : Heap) (arr : Nat) : List Iface → Except Panic Heap
  | [] => .ok σ
  | item :: rest =>
    match wrap σ item with
    | .ok (σ1, v) =>
      match jsonArray.Add σ1 arr v with
      | .ok σ2 => arrayLoop σ2 arr rest
      | .error e => .error e
    | .error e => .error e
/-- The loop `for key, item := range data` of `NewjsonObject`, filling `obj`. -/
def objectLoop (σ : Heap) (obj : Nat) : List (String × Iface) → Except Panic Heap
  | [] => .ok σ
  | (key, item) :: rest =>
    match wrap σ item with
    | .ok (σ1, v) =>
      match jsonObject.Add σ1 obj key v with
      | .ok σ2 => objectLoop σ2 obj rest
      | .error e => .error e
    | .error e => .error e
end

/-- Function `NewjsonArray`: a fresh `jsonArray` holding the wrapped items. -/
def NewjsonArray (σ : Heap) (data : List Iface) : Except Panic (Heap × Nat) :=
  match arrayLoop (σ.newArray).1 (σ.newArray).2 data with
  | .ok σ1 => .ok (σ1, (σ.newArray).2)
  | .error e => .error e

/-- Function `NewjsonObject`: a fresh `jsonObject` holding the wrapped items. -/
def NewjsonObject (σ : Heap) (data : List (String × Iface)) :
    Except Panic (Heap × Nat) :=
  match objectLoop (σ.newObject).1 (σ.newObject).2 data with
  | .ok σ1 => .ok (σ1, (σ.newObject).2)
  | .error e => .error e

/-! ## The collaborators: `qutils` and `strconv` -/

/-- Modelled from the spec: the `Default(index)` method of `qutils.ArgsBool`,
`ArgsInt64`, `ArgsFloat64` and `ArgsString`, whose source is not part of the
package; the spec gives it as first-of-variadic-arguments-or-zero-value. -/
def qutils.Default {α : Type} (zero : α) (args : List α) (index : Nat) : α :=
  args.getD index zero

/-- Library function `strconv.ParseBool`. -/
def strconv.ParseBool (str : String) : Except Error Bool :=
  if str = "1" ∨ str = "t" ∨ str = "T" ∨ str = "TRUE" ∨ str = "true" ∨ str = "True" then
    .ok true
  else if str = "0" ∨ str = "f" ∨ str = "F" ∨ str = "FALSE" ∨ str = "false"
      ∨ str = "False" then
    .ok false
  else .error (.numSyntax "ParseBool" str)

/-- Library function `strconv.FormatBool`. -/
def strconv.FormatBool (b : Bool) : String :=
  if b then "true" else "false"

/-- Constant `strconv.IntSize` of a 64-bit target. -/
def strconv.IntSize : Nat := 64

/-- The digit a byte stands for in `strconv.ParseUint`: `c - 48` for a decimal
digit, `lower(c) - 97 + 10` for a letter, where `lower(c) = c | 0x20`. -/
def strconv.digitVal (c : Char) : Option Nat :=
  if 48 ≤ c.toNat ∧ c.toNat ≤ 57 then some (c.toNat - 48)
  else if 97 ≤ (c.toNat ||| 32) ∧ (c.toNat ||| 32) ≤ 122 then
    some ((c.toNat ||| 32) - 97 + 10)
  else none

/-- The digit loop of `strconv.ParseUint` on `uint64` arithmetic; `n` is the
accumulator. The underscore case is absent: it needs `base == 0`. -/
def strconv.parseUintLoop (s0 : String) (base cutoff maxVal : Nat) :
    Nat → List Char → Nat × Option Error
  | n, [] => (n, none)
  | n, c :: rest =>
    match strconv.digitVal c with
    | none => (0, some (.numSyntax "ParseUint" s0))
    | some d =>
      if d ≥ base then (0, some (.numSyntax "ParseUint" s0))
      else if n ≥ cutoff then (maxVal, some (.numRange "ParseUint" s0))
      else if (n * base % 2 ^ 64 + d) % 2 ^ 64 < n * base % 2 ^ 64
          ∨ (n * base % 2 ^ 64 + d) % 2 ^ 64 > maxVal then
        (maxVal, some (.numRange "ParseUint" s0))
      else strconv.parseUintLoop s0 base cutoff maxVal ((n * base % 2 ^ 64 + d) % 2 ^ 64) rest

/-- Library function `strconv.ParseUint` for an explicit base `2 ≤ base ≤ 36`
(the package only passes 10; the prefix inference of `base == 0` is not
modelled and reported as a base error). -/
def strconv.ParseUint (s : String) (base bitSize : Nat) : Nat × Option Error :=
  if s = "" then (0, some (.numSyntax "ParseUint" s))
  else if ¬ (2 ≤ base ∧ base ≤ 36) then (0, some (.numBase "ParseUint" s))
  else if bitSize > 64 then (0, some (.numBitSize "ParseUint" s))
  else
    strconv.parseUintLoop s base ((2 ^ 64 - 1) / base + 1)
      (2 ^ (if bitSize = 0 then strconv.IntSize else bitSize) - 1) 0 s.data

/-- Conversion `int64(u)` of a `uint64`: reinterpretation modulo `2^64`. -/
def int64OfUint64 (u : Nat) : Int :=
  if u % 2 ^ 64 < 2 ^ 63 then ((u % 2 ^ 64 : Nat) : Int)
  else ((u % 2 ^ 64 : Nat) : Int) - 2 ^ 64

/-- The `int64` a mathematical integer wraps to (two's complement). -/
def wrapInt64 (i : Int) : Int :=
  (i + 2 ^ 63) % 2 ^ 64 - 2 ^ 63

/-- Library function `strconv.ParseInt`. The value Go returns next to a
non-nil error is dropped: no caller in the package reads it. -/
def strconv.ParseInt (s : String) (base bitSize : Nat) : Except Error Int :=
  if s = "" then .error (.numSyntax "ParseInt" s)
  else
    let neg : Bool := s.data.head? == some '-'
    let signed : Bool := s.data.head? == some '+' || neg
    let cutoff : Nat := 2 ^ ((if bitSize = 0 then strconv.IntSize else bitSize) - 1)
    match strconv.ParseUint (if signed then String.mk s.data.tail else s) base bitSize with
    | (_, some (.numSyntax _ _)) => .error (.numSyntax "ParseInt" s)
    | (_, some (.numBase _ _)) => .error (.numBase "ParseInt" s)
    | (_, some (.numBitSize _ _)) => .error (.numBitSize "ParseInt" s)
    | (_, some (.msg t)) => .error (.msg t)
    | (un, _) =>
      if !neg && un ≥ cutoff then .error (.numRange "ParseInt" s)
      else if neg && un > cutoff then .error (.numRange "ParseInt" s)
      else if neg then .ok (wrapInt64 (- int64OfUint64 un))
      else .ok (int64OfUint64 un)

/-- Library function `strconv.FormatUint(u, 10)`. -/
def strconv.FormatUint (u : Nat) : String :=
  String.mk (Nat.toDigits 10 u)

/-- Library function `strconv.FormatInt(i, 10)`. -/
def strconv.FormatInt (i : Int) : String :=
  if i < 0 then String.mk ('-' :: Nat.toDigits 10 i.natAbs)
  else String.mk (Nat.toDigits 10 i.natAbs)

/-- The floating-point primitives the package relies on, left uninterpreted:
`strconv.ParseFloat(s, 64)`, `strconv.FormatFloat(f, 'f', 18, 64)` and the
conversions `float64(int64)`, `float64(uint64)`, `int64(float64)`. -/
structure FloatOps where
  ParseFloat : String → Except Error Float64
  FormatFloat : Float64 → String
  ofInt64 : Int → Float64
  ofUint64 : Nat → Float64
  toInt64 : Float64 → Int

/-- The `float64` constant `0`. -/
def Float64.zero : Float64 := ⟨0⟩

/-- The `float64` constant `1`. -/
def Float64.one : Float64 := ⟨0x3FF0000000000000⟩

/-- Comparison `f != 0` on `float64`: false exactly for `+0` and `-0`. -/
def Float64.neZero (f : Float64) : Bool :=
  f.bits % 2 ^ 63 != 0

/-- Method `json.Number.Int64`. -/
def Number.Int64 (n : String) : Except Error Int :=
  strconv.ParseInt n 10 64

/-! ## The document handle and its navigation methods -/

/-- Function `NewObjectJSON`. -/
def NewObjectJSON (σ : Heap) : Heap × QJson :=
  ((σ.newObject).1, ⟨.jsonObject (σ.newObject).2⟩)

/-- Function `NewArrayJSON`. -/
def NewArrayJSON (σ : Heap) : Heap × QJson :=
  ((σ.newArray).1, ⟨.jsonArray (σ.newArray).2⟩)

/-- Method `IsArray`. -/
def QJson.IsArray (this : QJson) : Bool :=
  match this.data with
  | .jsonArray _ => true
  | _ => false

/-- Method `asArray`: the type assertion `this.data.(*jsonArray)`. -/
def QJson.asArray (this : QJson) : Except Error Nat :=
  match this.data with
  | .jsonArray p => .ok p
  | _ => .error (.msg "type assertion to *jsonArray failed")

/-- Method `IsObject`. -/
def QJson.IsObject (this : QJson) : Bool :=
  match this.data with
  | .jsonObject _ => true
  | _ => false

/-- Method `asObject`: the type assertion `this.data.(*jsonObject)`. -/
def QJson.asObject (this : QJson) : Except Error Nat :=
  match this.data with
  | .jsonObject p => .ok p
  | _ => .error (.msg "type assertion to *jsonObject failed")

/-- Method `ArrayAdd`; the result handle is the receiver. -/
def QJson.ArrayAdd (σ : Heap) (this : QJson) (obj : Iface) :
    Except Panic (Heap × QJson) :=
  match this.asArray with
  | .ok arr =>
    match wrap σ obj with
    | .ok (σ1, val) =>
      match jsonArray.Add σ1 arr val with
      | .ok σ2 => .ok (σ2, this)
      | .error e => .error e
    | .error e => .error e
  | .error _ => .ok (σ, this)

/-- Method `ArrayGet`. -/
def QJson.ArrayGet (σ : Heap) (this : QJson) (index : Int) : Except Panic QJson :=
  match this.asArray with
  | .ok arr =>
    match jsonArray.Get σ arr index with
    | .ok (val, ok) => if ok then .ok ⟨val⟩ else .ok ⟨.nil⟩
    | .error e => .error e
  | .error _ => .ok ⟨.nil⟩

/-- Method `ArrayNewArray`. -/
def QJson.ArrayNewArray (σ : Heap) (this : QJson) : Except Panic (Heap × QJson) :=
  match this.asArray with
  | .ok arr =>
    match jsonArray.Add (σ.newArray).1 arr (.jsonArray (σ.newArray).2) with
    | .ok σ1 =>
      match jsonArray.Last σ1 arr with
      | .ok (val, b) => if b then .ok (σ1, ⟨val⟩) else .ok (σ1, ⟨.nil⟩)
      | .error e => .error e
    | .error e => .error e
  | .error _ => .ok (σ, ⟨.nil⟩)

/-- Method `ArrayNewObject`. -/
def QJson.ArrayNewObject (σ : Heap) (this : QJson) : Except Panic (Heap × QJson) :=
  match this.asArray with
  | .ok arr =>
    match jsonArray.Add (σ.newObject).1 arr (.jsonObject (σ.newObject).2) with
    | .ok σ1 =>
      match jsonArray.Last σ1 arr with
      | .ok (val, b) => if b then .ok (σ1, ⟨val⟩) else .ok (σ1, ⟨.nil⟩)
      | .error e => .error e
    | .error e => .error e
  | .error _ => .ok (σ, ⟨.nil⟩)

/-- Method `Exists`. -/
def QJson.Exists (σ : Heap) (this : QJson) (key : String) : Except Panic Bool :=
  match this.asObject with
  | .error _ => .ok false
  | .ok jobj =>
    match jsonObject.Get σ jobj key with
    | .ok (_, ok) => .ok ok
    | .error e => .error e

/-- Method `ObjectAdd`; the result handle is the receiver. -/
def QJson.ObjectAdd (σ : Heap) (this : QJson) (key : String) (obj : Iface) :
    Except Panic (Heap × QJson) :=
  match this.asObject with
  | .ok jobj =>
    match wrap σ obj with
    | .ok (σ1, val) =>
      match jsonObject.Add σ1 jobj key val with
      | .ok σ2 => .ok (σ2, this)
      | .error e => .error e
    | .error e => .error e
  | .error _ => .ok (σ, this)

/-- Method `ObjectGet`. -/
def QJson.ObjectGet (σ : Heap) (this : QJson) (key : String) : Except Panic QJson :=
  match this.asObject with
  | .ok obj =>
    match jsonObject.Get σ obj key with
    | .ok (val, ok) => if ok then .ok ⟨val⟩ else .ok ⟨.nil⟩
    | .error e => .error e
  | .error _ => .ok ⟨.nil⟩

/-- Method `ObjectNewObject`: `this.ObjectAdd(key, &jsonObject{}).ObjectGet(key)`. -/
def QJson.ObjectNewObject (σ : Heap) (this : QJson) (key : String) :
    Except Panic (Heap × QJson) :=
  match QJson.ObjectAdd (σ.newObject).1 this key (.jsonObject (σ.newObject).2) with
  | .ok (σ1, that) =>
    match QJson.ObjectGet σ1 that key with
    | .ok h => .ok (σ1, h)
    | .error e => .error e
  | .error e => .error e

/-- Method `ObjectNewArray`: `this.ObjectAdd(key, &jsonArray{}).ObjectGet(key)`. -/
def QJson.ObjectNewArray (σ : Heap) (this : QJson) (key : String) :
    Except Panic (Heap × QJson) :=
  match QJson.ObjectAdd (σ.newArray).1 this key (.jsonArray (σ.newArray).2) with
  | .ok (σ1, that) =>
    match QJson.ObjectGet σ1 that key with
    | .ok h => .ok (σ1, h)
    | .error e => .error e
  | .error e => .error e

/-! ## The coercion engine -/

/-- Function `convertBool`. In the `json.Number` case a failed `Int64` leaves
the switch and reaches the final error. -/
def convertBool (o : Iface) : Except Error Bool :=
  match o with
  | .nil => .ok false
  | .bool val => .ok val
  | .string val => strconv.ParseBool val
  | .number val =>
    match Number.Int64 val with
    | .ok v => .ok (v != 0)
    | .error _ => .error (.msg "The json can not be converted to a Boolean value")
  | .int val => .ok (val != 0)
  | .uint val => .ok (val != 0)
  | .float val => .ok val.neZero
  | _ => .error (.msg "The json can not be converted to a Boolean value")

/-- Function `convertString`. The `default` branch retries the assertion
`o.(string)`, which cannot hold there. -/
def convertString (fp : FloatOps) (o : Iface) : Except Error String :=
  match o with
  | .nil => .ok "null"
  | .bool val => .ok (strconv.FormatBool val)
  | .string val => .ok val
  | .number val => .ok val
  | .int val => .ok (strconv.FormatInt val)
  | .uint val => .ok (strconv.FormatUint val)
  | .float val => .ok (fp.FormatFloat val)
  | _ => .error (.msg "The json can not be converted to a string value")

/-- Function `convertInt64`. -/
def convertInt64 (fp : FloatOps) (o : Iface) : Except Error Int :=
  match o with
  | .nil => .ok 0
  | .bool val => if val then .ok 1 else .ok 0
  | .string val => strconv.ParseInt val 10 0
  | .number val => Number.Int64 val
  | .int val => .ok val
  | .uint val => .ok (int64OfUint64 val)
  | .float val => .ok (fp.toInt64 val)
  | _ => .error (.msg "The json can not be converted to a int64 value")

/-- Function `convertFloat64`. -/
def convertFloat64 (fp : FloatOps) (o : Iface) : Except Error Float64 :=
  match o with
  | .nil => .ok Float64.zero
  | .bool val => if val then .ok Float64.one else .ok Float64.zero
  | .string val => fp.ParseFloat val
  | .number val => fp.ParseFloat val
  | .int val => .ok (fp.ofInt64 val)
  | .uint val => .ok (fp.ofUint64 val)
  | .float val => .ok val
  | _ => .error (.msg "The json can not be converted to a float64 value")

/-- Method `MustBool`; `args` is the variadic default. -/
def QJson.MustBool (this : QJson) (args : List Bool) : Bool :=
  match convertBool this.data with
  | .error _ => qutils.Default false args 0
  | .ok val => val

/-- Method `MustInt`; the diagnostic print on the error path is not modelled. -/
def QJson.MustInt (fp : FloatOps) (this : QJson) (args : List Int) : Int :=
  match convertInt64 fp this.data with
  | .error _ => qutils.Default 0 args 0
  | .ok val => val

/-- Method `MustFloat`. -/
def QJson.MustFloat (fp : FloatOps) (this : QJson) (args : List Float64) : Float64 :=
  match convertFloat64 fp this.data with
  | .error _ => qutils.Default Float64.zero args 0
  | .ok val => val

/-- Method `MustString`. -/
def QJson.MustString (fp : FloatOps) (this : QJson) (args : List String) : String :=
  match convertString fp this.data with
  | .error _ => qutils.Default "" args 0
  | .ok val => val

/-- Whether `x` has one of the four raw container types the type switch has a
case for, a nil pointer of such a type included. -/
def Iface.isRaw : Iface → Bool
  | .slice _ => true
  | .slicePtr _ => true
  | .map _ => true
  | .mapPtr _ => true
  | .nilSlicePtr => true
  | .nilMapPtr => true
  | _ => false

/-- The value `v` over heap `σ1` is what the type switch makes of the item `x`
over heap `σ`: for a raw slice (or a pointer to one) the pointer `NewjsonArray`
returns, for a raw map (or a pointer to one) the pointer `NewjsonObject`
returns, nothing for a nil pointer to a slice or map, and `x` itself over the
same heap for anything else. -/
def Wrapped (σ : Heap) (x : Iface) (σ1 : Heap) (v : Iface) : Prop :=
  match x with
  | .slice val => ∃ q, NewjsonArray σ val = .ok (σ1, q) ∧ v = .jsonArray q
  | .slicePtr val => ∃ q, NewjsonArray σ val = .ok (σ1, q) ∧ v = .jsonArray q
  | .map val => ∃ q, NewjsonObject σ val = .ok (σ1, q) ∧ v = .jsonObject q
  | .mapPtr val => ∃ q, NewjsonObject σ val = .ok (σ1, q) ∧ v = .jsonObject q
  | .nilSlicePtr => False
  | .nilMapPtr => False
  | _ => σ1 = σ ∧ v = x

/-- Every cell of `σ` outside the marked addresses is still there, unchanged,
in `σ'`, and no cell was removed. -/
def Frame (σ σ' : Heap) (A O : Nat → Prop) : Prop :=
  σ.arrays.length ≤ σ'.arrays.length ∧ σ.objects.length ≤ σ'.objects.length ∧
  (∀ p, p < σ.arrays.length → ¬ A p → σ'.arrays[p]? = σ.arrays[p]?) ∧
  (∀ p, p < σ.objects.length → ¬ O p → σ'.objects[p]? = σ.objects[p]?)

/-! ## Raw trees and their normal form -/

mutual
/-- Whether every raw map inside `x` lists each key once, as a Go map does. -/
def Iface.keysNodup : Iface → Bool
  | .slice val => listKeysNodup val
  | .slicePtr val => listKeysNodup val
  | .map val => decide (val.map Prod.fst).Nodup && entriesKeysNodup val
  | .mapPtr val => decide (val.map Prod.fst).Nodup && entriesKeysNodup val
  | .nilSlicePtr => true
  | .nilMapPtr => true
  | .nil => true
  | .bool _ => true
  | .string _ => true
  | .number _ => true
  | .int _ => true
  | .uint _ => true
  | .float _ => true
  | .jsonArray _ => true
  | .jsonObject _ => true
  | .other _ => true
/-- The same for each element of a raw slice. -/
def listKeysNodup : List Iface → Bool
  | [] => true
  | x :: rest => x.keysNodup && listKeysNodup rest
/-- The same for each value of a raw map. -/
def entriesKeysNodup : List (String × Iface) → Bool
  | [] => true
  | (_, x) :: rest => x.keysNodup && entriesKeysNodup rest
end

mutual
/-- Whether `x` holds no nil pointer to a slice or map, at any depth. -/
def Iface.noNilPtr : Iface → Bool
  | .slice val => listNoNilPtr val
  | .slicePtr val => listNoNilPtr val
  | .map val => entriesNoNilPtr val
  | .mapPtr val => entriesNoNilPtr val
  | .nilSlicePtr => false
  | .nilMapPtr => false
  | .nil => true
  | .bool _ => true
  | .string _ => true
  | .number _ => true
  | .int _ => true
  | .uint _ => true
  | .float _ => true
  | .jsonArray _ => true
  | .jsonObject _ => true
  | .other _ => true
/-- The same for each element of a raw slice. -/
def listNoNilPtr : List Iface → Bool
  | [] => true
  | x :: rest => x.noNilPtr && listNoNilPtr rest
/-- The same for each value of a raw map. -/
def entriesNoNilPtr : List (String × Iface) → Bool
  | [] => true
  | (_, x) :: rest => x.noNilPtr && entriesNoNilPtr rest
end

mutual
/-- The value `v` over heap `σ` is the normal form of the item `x`: where `x`
is a raw slice (or a pointer to one) `v` is a `*jsonArray` whose cell lists the
normal forms of the elements in the same order; where `x` is a raw map (or a
pointer to one) `v` is a `*jsonObject` whose cell lists the same keys in the
same order, each with the normal form of its value; a nil pointer to a slice
or map has no normal form; anything else is kept as it is. The containers sit
at array addresses `≥ a` and object addresses `≥ o`. -/
def Normalized (a o : Nat) (σ : Heap) : Iface → Iface → Prop
  | .slice val, v =>
    ∃ q ys, v = .jsonArray q ∧ a ≤ q ∧ σ.arrays[q]? = some ys ∧ NormalizedList a o σ val ys
  | .slicePtr val, v =>
    ∃ q ys, v = .jsonArray q ∧ a ≤ q ∧ σ.arrays[q]? = some ys ∧ NormalizedList a o σ val ys
  | .map val, v =>
    ∃ q m, v = .jsonObject q ∧ o ≤ q ∧ σ.objects[q]? = some m ∧
      NormalizedEntries a o σ val m
  | .mapPtr val, v =>
    ∃ q m, v = .jsonObject q ∧ o ≤ q ∧ σ.objects[q]? = some m ∧
      NormalizedEntries a o σ val m
  | .nilSlicePtr, _ => False
  | .nilMapPtr, _ => False
  | .nil, v => v = .nil
  | .bool b, v => v = .bool b
  | .string s, v => v = .string s
  | .number s, v => v = .number s
  | .int i, v => v = .int i
  | .uint u, v => v = .uint u
  | .float f, v => v = .float f
  | .jsonArray p, v => v = .jsonArray p
  | .jsonObject p, v => v = .jsonObject p
  | .other t, v => v = .other t
/-- Element by element, `ys` lists the normal forms of `xs`. -/
def NormalizedList (a o : Nat) (σ : Heap) : List Iface → List Iface → Prop
  | [], ys => ys = []
  | x :: rest, ys =>
    ∃ y ys', ys = y :: ys' ∧ Normalized a o σ x y ∧ NormalizedList a o σ rest ys'
/-- Entry by entry, `m` lists the keys of `xs` with the normal forms of their
values. -/
def NormalizedEntries (a o : Nat) (σ : Heap) :
    List (String × Iface) → List (String × Iface) → Prop
  | [], m => m = []
  | (k, x) :: rest, m =>
    ∃ y m', m = (k, y) :: m' ∧ Normalized a o σ x y ∧ NormalizedEntries a o σ rest m'
end

/-! ## Call sequences on one handle -/

/-- The chain `h.ArrayAdd(x1).ArrayAdd(x2)...` over the items of a list. -/
def addAll (σ : Heap) (h : QJson) : List Iface → Except Panic Heap
  | [] => .ok σ
  | x :: rest =>
    match QJson.ArrayAdd σ h x with
    | .ok (σ1, h1) => addAll σ1 h1 rest
    | .error e => .error e

/-- The chain `h.ObjectAdd(k1, x1).ObjectAdd(k2, x2)...` over the entries of a
list. -/
def setAll (σ : Heap) (h : QJson) : List (String × Iface) → Except Panic Heap
  | [] => .ok σ
  | (k, x) :: rest =>
    match QJson.ObjectAdd σ h k x with
    | .ok (σ1, h1) => setAll σ1 h1 rest
    | .error e => .error e

/-- The map left by writing the entries of `ws` into `m0`, in order. -/
def setEntries (m0 ws : List (String × Iface)) : List (String × Iface) :=
  ws.foldl (fun m e => mapSet m e.1 e.2) m0

/-! ## The conversion tables as the specification words them -/

/-- The String row of the boolean table as the specification words it: the
literals `"true"`, `"1"`, `"false"`, `"0"`, and the default for any other text. -/
def specBoolOfString (s : String) (d : Bool) : Bool :=
  if s = "true" ∨ s = "1" then true
  else if s = "false" ∨ s = "0" then false
  else d

/-- An ASCII decimal digit, `'0'` to `'9'`. -/
def isDecimalDigit (c : Char) : Bool :=
  decide (48 ≤ c.toNat ∧ c.toNat ≤ 57)

/-- The number a sequence of decimal digits denotes, most significant first. -/
def digitsValue (cs : List Char) : Nat :=
  cs.foldl (fun acc c => 10 * acc + (c.toNat - 48)) 0

/-- An unsigned base-10 literal: one or more decimal digits. -/
def natLiteral (cs : List Char) : Option Nat :=
  if cs ≠ [] ∧ cs.all isDecimalDigit = true then some (digitsValue cs) else none

/-- A base-10 integer literal and the integer it denotes: an optional sign
`+` or `-` followed by one or more decimal digits. -/
def intLiteral (s : String) : Option Int :=
  match s.data with
  | [] => none
  | c :: cs =>
    if c = '+' then (natLiteral cs).map (fun (n : Nat) => (n : Int))
    else if c = '-' then (natLiteral cs).map (fun (n : Nat) => - (n : Int))
    else (natLiteral (c :: cs)).map (fun (n : Nat) => (n : Int))

/-- The `int64` range. -/
def inInt64 (n : Int) : Prop :=
  -2 ^ 63 ≤ n ∧ n < 2 ^ 63

instance (n : Int) : Decidable (inInt64 n) := by
  unfold inInt64
  exact inferInstance

/-- The fraction digits and the exponent that follow the integer digits of a
decimal text: nothing, `.` and digits, `e` or `E` and a signed integer, or both. -/
def decimalTail (cs : List Char) : Option (List Char × Int) :=
  let frac : List Char :=
    if cs.head? = some '.' then cs.tail.takeWhile isDecimalDigit else []
  let rest : List Char :=
    if cs.head? = some '.' then cs.tail.dropWhile isDecimalDigit else cs
  if cs.head? = some '.' ∧ frac = [] then none
  else
    match rest with
    | [] => some (frac, 0)
    | e :: ds =>
      if e = 'e' ∨ e = 'E' then
        (intLiteral (String.mk ds)).map (fun (x : Int) => (frac, x))
      else none

/-- The value of a decimal text as the specification's Number keeps it (an
optional `-`, integer digits, an optional fraction, an optional exponent),
given as `(m, e)` for `m * 10 ^ e`. -/
def decimalValue (t : String) : Option (Int × Int) :=
  let neg : Bool := t.data.head? == some '-'
  let cs : List Char := if neg then t.data.tail else t.data
  if cs.takeWhile isDecimalDigit = [] then none
  else
    (decimalTail (cs.dropWhile isDecimalDigit)).map (fun (r : List Char × Int) =>
      ((if neg then -1 else 1) * (digitsValue (cs.takeWhile isDecimalDigit ++ r.1) : Int),
        r.2 - (r.1.length : Int)))

/-- The integer a decimal text denotes, when its value is an integer. -/
def decimalInteger (t : String) : Option Int :=
  match decimalValue t with
  | none => none
  | some (m, e) =>
    if 0 ≤ e then some (m * 10 ^ e.toNat)
    else if m % 10 ^ (-e).toNat = 0 then some (m / 10 ^ (-e).toNat)
    else none

/-! ## Heap framing -/

theorem Frame_refl (σ : Heap) (A O : Nat → Prop) : Frame σ σ A O :=
  ⟨le_rfl, le_rfl, fun _ _ _ => rfl, fun _ _ _ => rfl⟩

theorem Frame_trans {σ1 σ2 σ3 : Heap} {A O : Nat → Prop}
    (h12 : Frame σ1 σ2 A O) (h23 : Frame σ2 σ3 A O) : Frame σ1 σ3 A O := by
  obtain ⟨a1, o1, fa1, fo1⟩ := h12
  obtain ⟨a2, o2, fa2, fo2⟩ := h23
  refine ⟨le_trans a1 a2, le_trans o1 o2, ?_, ?_⟩
  · intro p hp hA
    rw [fa2 p (lt_of_lt_of_le hp a1) hA, fa1 p hp hA]
  · intro p hp hO
    rw [fo2 p (lt_of_lt_of_le hp o1) hO, fo1 p hp hO]

theorem Frame_mono {σ σ' : Heap} {A O A' O' : Nat → Prop}
    (h : Frame σ σ' A O) (hA : ∀ p, A p → A' p) (hO : ∀ p, O p → O' p) :
    Frame σ σ' A' O' := by
  obtain ⟨a, o, fa, fo⟩ := h
  exact ⟨a, o, fun p hp hn => fa p hp (fun h => hn (hA p h)),
    fun p hp hn => fo p hp (fun h => hn (hO p h))⟩

theorem Frame_newArray (σ : Heap) (A O : Nat → Prop) : Frame σ (σ.newArray).1 A O := by
  refine ⟨by simp [Heap.newArray], le_rfl, ?_, fun _ _ _ => rfl⟩
  intro p hp _
  simp [Heap.newArray, List.getElem?_append_left hp]

theorem Frame_newObject (σ : Heap) (A O : Nat → Prop) : Frame σ (σ.newObject).1 A O := by
  refine ⟨le_rfl, by simp [Heap.newObject], fun _ _ _ => rfl, ?_⟩
  intro p hp _
  simp [Heap.newObject, List.getElem?_append_left hp]

theorem jsonArray_Add_ok {σ : Heap} {arr : Nat} (h : arr < σ.arrays.length) (v : Iface) :
    ∃ σ', jsonArray.Add σ arr v = .ok σ' ∧ Frame σ σ' (· = arr) (fun _ => False)
      ∧ σ'.arrays[arr]? = some (σ.arrays[arr] ++ [v]) := by
  refine ⟨{ σ with arrays := σ.arrays.set arr (σ.arrays[arr] ++ [v]) }, ?_, ?_, ?_⟩
  · simp [jsonArray.Add, List.getElem?_eq_getElem h]
  · refine ⟨by simp, le_rfl, ?_, fun _ _ _ => rfl⟩
    intro p _ hne
    simp [List.getElem?_set_ne (Ne.symm hne)]
  · simp [h]

theorem jsonObject_Add_ok {σ : Heap} {obj : Nat} (h : obj < σ.objects.length)
    (k : String) (v : Iface) :
    ∃ σ', jsonObject.Add σ obj k v = .ok σ' ∧ Frame σ σ' (fun _ => False) (· = obj)
      ∧ σ'.objects[obj]? = some (mapSet σ.objects[obj] k v) := by
  refine ⟨{ σ with objects := σ.objects.set obj (mapSet σ.objects[obj] k v) }, ?_, ?_, ?_⟩
  · simp [jsonObject.Add, List.getElem?_eq_getElem h]
  · refine ⟨le_rfl, by simp, fun _ _ _ => rfl, ?_⟩
    intro p _ hne
    simp [List.getElem?_set_ne (Ne.symm hne)]
  · simp [h]

mutual
/-- On an item that holds no nil pointer to a slice or map the type switch
does not panic, and it leaves every existing cell as it was. -/
theorem wrap_ok (x : Iface) (σ : Heap) (hx : x.noNilPtr = true) :
    ∃ σ' v, wrap σ x = .ok (σ', v) ∧ Frame σ σ' (fun _ => False) (fun _ => False) := by
  cases x with
  | nilSlicePtr => simp [Iface.noNilPtr] at hx
  | nilMapPtr => simp [Iface.noNilPtr] at hx
  | slice val =>
    simp only [Iface.noNilPtr] at hx
    obtain ⟨σ1, h1, f1⟩ := arrayLoop_ok val (σ.newArray).1 (σ.newArray).2
      (by simp [Heap.newArray]) hx
    refine ⟨σ1, .jsonArray (σ.newArray).2, by simp [wrap, h1], ?_⟩
    refine ⟨le_trans (Frame_newArray σ (fun _ => False) (fun _ => False)).1 f1.1, f1.2.1, fun p hp _ => ?_, fun p hp _ => ?_⟩
    · rw [f1.2.2.1 p (lt_of_lt_of_le hp (Frame_newArray σ (fun _ => False) (fun _ => False)).1)
        (by simp [Heap.newArray]; omega)]
      exact (Frame_newArray σ (fun _ => False) (fun _ => False)).2.2.1 p hp (fun h => h)
    · exact f1.2.2.2 p hp (fun h => h)
  | slicePtr val =>
    simp only [Iface.noNilPtr] at hx
    obtain ⟨σ1, h1, f1⟩ := arrayLoop_ok val (σ.newArray).1 (σ.newArray).2
      (by simp [Heap.newArray]) hx
    refine ⟨σ1, .jsonArray (σ.newArray).2, by simp [wrap, h1], ?_⟩
    refine ⟨le_trans (Frame_newArray σ (fun _ => False) (fun _ => False)).1 f1.1, f1.2.1, fun p hp _ => ?_, fun p hp _ => ?_⟩
    · rw [f1.2.2.1 p (lt_of_lt_of_le hp (Frame_newArray σ (fun _ => False) (fun _ => False)).1)
        (by simp [Heap.newArray]; omega)]
      exact (Frame_newArray σ (fun _ => False) (fun _ => False)).2.2.1 p hp (fun h => h)
    · exact f1.2.2.2 p hp (fun h => h)
  | map val =>
    simp only [Iface.noNilPtr] at hx
    obtain ⟨σ1, h1, f1⟩ := objectLoop_ok val (σ.newObject).1 (σ.newObject).2
      (by simp [Heap.newObject]) hx
    refine ⟨σ1, .jsonObject (σ.newObject).2, by simp [wrap, h1], ?_⟩
    refine ⟨f1.1, le_trans (Frame_newObject σ (fun _ => False) (fun _ => False)).2.1 f1.2.1, fun p hp _ => ?_,
      fun p hp _ => ?_⟩
    · exact f1.2.2.1 p hp (fun h => h)
    · rw [f1.2.2.2 p (lt_of_lt_of_le hp (Frame_newObject σ (fun _ => False) (fun _ => False)).2.1)
        (by simp [Heap.newObject]; omega)]
      exact (Frame_newObject σ (fun _ => False) (fun _ => False)).2.2.2 p hp (fun h => h)
  | mapPtr val =>
    simp only [Iface.noNilPtr] at hx
    obtain ⟨σ1, h1, f1⟩ := objectLoop_ok val (σ.newObject).1 (σ.newObject).2
      (by simp [Heap.newObject]) hx
    refine ⟨σ1, .jsonObject (σ.newObject).2, by simp [wrap, h1], ?_⟩
    refine ⟨f1.1, le_trans (Frame_newObject σ (fun _ => False) (fun _ => False)).2.1 f1.2.1, fun p hp _ => ?_,
      fun p hp _ => ?_⟩
    · exact f1.2.2.1 p hp (fun h => h)
    · rw [f1.2.2.2 p (lt_of_lt_of_le hp (Frame_newObject σ (fun _ => False) (fun _ => False)).2.1)
        (by simp [Heap.newObject]; omega)]
      exact (Frame_newObject σ (fun _ => False) (fun _ => False)).2.2.2 p hp (fun h => h)
  | nil => exact ⟨σ, _, rfl, Frame_refl _ _ _⟩
  | bool b => exact ⟨σ, _, rfl, Frame_refl _ _ _⟩
  | string s => exact ⟨σ, _, rfl, Frame_refl _ _ _⟩
  | number s => exact ⟨σ, _, rfl, Frame_refl _ _ _⟩
  | int i => exact ⟨σ, _, rfl, Frame_refl _ _ _⟩
  | uint u => exact ⟨σ, _, rfl, Frame_refl _ _ _⟩
  | float f => exact ⟨σ, _, rfl, Frame_refl _ _ _⟩
  | jsonArray p => exact ⟨σ, _, rfl, Frame_refl _ _ _⟩
  | jsonObject p => exact ⟨σ, _, rfl, Frame_refl _ _ _⟩
  | other t => exact ⟨σ, _, rfl, Frame_refl _ _ _⟩
/-- On items that hold no nil pointer the loop of `NewjsonArray` does not
panic, and it touches no existing cell but the array it fills. -/
theorem arrayLoop_ok (xs : List Iface) (σ : Heap) (arr : Nat) (h : arr < σ.arrays.length)
    (hx : listNoNilPtr xs = true) :
    ∃ σ', arrayLoop σ arr xs = .ok σ' ∧ Frame σ σ' (· = arr) (fun _ => False) := by
  cases xs with
  | nil => exact ⟨σ, by simp [arrayLoop], Frame_refl _ _ _⟩
  | cons item rest =>
    simp only [listNoNilPtr, Bool.and_eq_true] at hx
    obtain ⟨σ1, v, h1, f1⟩ := wrap_ok item σ hx.1
    obtain ⟨σ2, h2, f2, _⟩ := jsonArray_Add_ok (lt_of_lt_of_le h f1.1) v
    obtain ⟨σ3, h3, f3⟩ := arrayLoop_ok rest σ2 arr (lt_of_lt_of_le h (le_trans f1.1 f2.1))
      hx.2
    refine ⟨σ3, by simp [arrayLoop, h1, h2, h3], ?_⟩
    exact Frame_trans (Frame_trans (Frame_mono f1 (fun _ h => h.elim) (fun _ h => h)) f2) f3
/-- On entries that hold no nil pointer the loop of `NewjsonObject` does not
panic, and it touches no existing cell but the object it fills. -/
theorem objectLoop_ok (m : List (String × Iface)) (σ : Heap) (obj : Nat)
    (h : obj < σ.objects.length) (hx : entriesNoNilPtr m = true) :
    ∃ σ', objectLoop σ obj m = .ok σ' ∧ Frame σ σ' (fun _ => False) (· = obj) := by
  cases m with
  | nil => exact ⟨σ, by simp [objectLoop], Frame_refl _ _ _⟩
  | cons e rest =>
    obtain ⟨key, item⟩ := e
    simp only [entriesNoNilPtr, Bool.and_eq_true] at hx
    obtain ⟨σ1, v, h1, f1⟩ := wrap_ok item σ hx.1
    obtain ⟨σ2, h2, f2, _⟩ := jsonObject_Add_ok (lt_of_lt_of_le h f1.2.1) key v
    obtain ⟨σ3, h3, f3⟩ := objectLoop_ok rest σ2 obj
      (lt_of_lt_of_le h (le_trans f1.2.1 f2.2.1)) hx.2
    refine ⟨σ3, by simp [objectLoop, h1, h2, h3], ?_⟩
    exact Frame_trans (Frame_trans (Frame_mono f1 (fun _ h => h) (fun _ h => h.elim)) f2) f3
end

theorem wrap_not_raw (σ : Heap) (x : Iface) (h : x.isRaw = false) :
    wrap σ x = .ok (σ, x) := by
  cases x <;> first | rfl | simp [Iface.isRaw] at h

theorem wrap_wrapped (σ : Heap) (x : Iface) (σ1 : Heap) (v : Iface)
    (h : wrap σ x = .ok (σ1, v)) : Wrapped σ x σ1 v := by
  cases x with
  | nilSlicePtr => exact Except.noConfusion h
  | nilMapPtr => exact Except.noConfusion h
  | slice val =>
    simp only [wrap] at h
    simp only [Wrapped, NewjsonArray]
    split at h
    · rename_i σ2 h2
      injection h with h
      injection h with ha hb
      exact ⟨(σ.newArray).2, by rw [ha], hb.symm⟩
    · exact Except.noConfusion h
  | slicePtr val =>
    simp only [wrap] at h
    simp only [Wrapped, NewjsonArray]
    split at h
    · rename_i σ2 h2
      injection h with h
      injection h with ha hb
      exact ⟨(σ.newArray).2, by rw [ha], hb.symm⟩
    · exact Except.noConfusion h
  | map val =>
    simp only [wrap] at h
    simp only [Wrapped, NewjsonObject]
    split at h
    · rename_i σ2 h2
      injection h with h
      injection h with ha hb
      exact ⟨(σ.newObject).2, by rw [ha], hb.symm⟩
    · exact Except.noConfusion h
  | mapPtr val =>
    simp only [wrap] at h
    simp only [Wrapped, NewjsonObject]
    split at h
    · rename_i σ2 h2
      injection h with h
      injection h with ha hb
      exact ⟨(σ.newObject).2, by rw [ha], hb.symm⟩
    · exact Except.noConfusion h
  | nil => injection h with h; injection h with ha hb; exact ⟨ha.symm, hb.symm⟩
  | bool b => injection h with h; injection h with ha hb; exact ⟨ha.symm, hb.symm⟩
  | string s => injection h with h; injection h with ha hb; exact ⟨ha.symm, hb.symm⟩
  | number s => injection h with h; injection h with ha hb; exact ⟨ha.symm, hb.symm⟩
  | int i => injection h with h; injection h with ha hb; exact ⟨ha.symm, hb.symm⟩
  | uint u => injection h with h; injection h with ha hb; exact ⟨ha.symm, hb.symm⟩
  | float f => injection h with h; injection h with ha hb; exact ⟨ha.symm, hb.symm⟩
  | jsonArray p => injection h with h; injection h with ha hb; exact ⟨ha.symm, hb.symm⟩
  | jsonObject p => injection h with h; injection h with ha hb; exact ⟨ha.symm, hb.symm⟩
  | other t => injection h with h; injection h with ha hb; exact ⟨ha.symm, hb.symm⟩

theorem mapGet_mapSet_same (m : List (String × Iface)) (k : String) (v : Iface) :
    mapGet (mapSet m k v) k = some v := by
  induction m with
  | nil => simp [mapSet, mapGet]
  | cons e rest ih =>
    obtain ⟨k0, v0⟩ := e
    by_cases hk : k0 = k
    · simp [mapSet, mapGet, hk]
    · simp [mapSet, mapGet, hk, ih]

theorem mapGet_mapSet_other (m : List (String × Iface)) (k k' : String) (v : Iface)
    (hne : k' ≠ k) : mapGet (mapSet m k v) k' = mapGet m k' := by
  induction m with
  | nil => simp [mapSet, mapGet, Ne.symm hne]
  | cons e rest ih =>
    obtain ⟨k0, v0⟩ := e
    by_cases hk : k0 = k
    · subst hk
      simp [mapSet, mapGet, Ne.symm hne]
    · by_cases hk' : k0 = k'
      · subst hk'
        simp [mapSet, mapGet, hk]
      · simp [mapSet, mapGet, hk, hk', ih]

theorem mem_keys_mapSet (m : List (String × Iface)) (k k' : String) (v : Iface) :
    k' ∈ (mapSet m k v).map Prod.fst ↔ k' = k ∨ k' ∈ m.map Prod.fst := by
  induction m with
  | nil => simp [mapSet]
  | cons e rest ih =>
    obtain ⟨k0, v0⟩ := e
    by_cases hk : k0 = k
    · subst hk
      simp [mapSet]
    · simp only [mapSet, hk, if_false, List.map_cons, List.mem_cons, ih]
      tauto

theorem nodup_keys_mapSet (m : List (String × Iface)) (k : String) (v : Iface)
    (h : (m.map Prod.fst).Nodup) : ((mapSet m k v).map Prod.fst).Nodup := by
  induction m with
  | nil => simp [mapSet]
  | cons e rest ih =>
    obtain ⟨k0, v0⟩ := e
    simp only [List.map_cons, List.nodup_cons] at h
    by_cases hk : k0 = k
    · subst hk
      simp only [mapSet, if_true, List.map_cons, List.nodup_cons]
      exact h
    · rw [mapSet, if_neg hk, List.map_cons, List.nodup_cons, mem_keys_mapSet]
      exact ⟨fun hc => hc.elim hk h.1, ih h.2⟩

theorem jsonArray_Get_last (σ : Heap) (p : Nat) (xs : List Iface) (v : Iface)
    (h : σ.arrays[p]? = some (xs ++ [v])) :
    jsonArray.Get σ p xs.length = .ok (v, true) := by
  simp [jsonArray.Get, h]

/-! ## `strconv.ParseInt` against the literal grammar -/

theorem digitVal_of_digit (c : Char) (h : isDecimalDigit c = true) :
    strconv.digitVal c = some (c.toNat - 48) ∧ c.toNat - 48 < 10 := by
  simp only [isDecimalDigit, decide_eq_true_eq] at h
  refine ⟨by simp [strconv.digitVal, h], by omega⟩

theorem digitVal_of_not_digit (c : Char) (h : isDecimalDigit c = false) :
    strconv.digitVal c = none ∨ ∃ d, strconv.digitVal c = some d ∧ 10 ≤ d := by
  simp only [isDecimalDigit, decide_eq_false_iff_not] at h
  unfold strconv.digitVal
  rw [if_neg h]
  split
  · exact .inr ⟨_, rfl, by omega⟩
  · exact .inl rfl

theorem foldl_digits_ge (cs : List Char) (n : Nat) :
    n ≤ cs.foldl (fun acc c => 10 * acc + (c.toNat - 48)) n := by
  induction cs generalizing n with
  | nil => exact le_rfl
  | cons c rest ih =>
    simp only [List.foldl_cons]
    exact le_trans (by omega) (ih _)

theorem parseUintLoop_digits (s0 : String) (cs : List Char) (n : Nat)
    (h : cs.all isDecimalDigit = true) (hn : n < 2 ^ 64) :
    strconv.parseUintLoop s0 10 ((2 ^ 64 - 1) / 10 + 1) (2 ^ 64 - 1) n cs =
      if cs.foldl (fun acc c => 10 * acc + (c.toNat - 48)) n < 2 ^ 64 then
        (cs.foldl (fun acc c => 10 * acc + (c.toNat - 48)) n, none)
      else (2 ^ 64 - 1, some (.numRange "ParseUint" s0)) := by
  induction cs generalizing n with
  | nil => simp only [strconv.parseUintLoop, List.foldl_nil, if_pos hn]
  | cons c rest ih =>
    simp only [List.all_cons, Bool.and_eq_true] at h
    obtain ⟨hd, hd10⟩ := digitVal_of_digit c h.1
    have hge := foldl_digits_ge rest (10 * n + (c.toNat - 48))
    simp only [strconv.parseUintLoop, hd, List.foldl_cons]
    rw [if_neg (by omega)]
    by_cases hc : n ≥ (2 ^ 64 - 1) / 10 + 1
    · rw [if_pos hc, if_neg (by omega)]
    · rw [if_neg hc]
      by_cases hov : 10 * n + (c.toNat - 48) < 2 ^ 64
      · have e1 : (n * 10 % 2 ^ 64 + (c.toNat - 48)) % 2 ^ 64 = 10 * n + (c.toNat - 48) := by
          omega
        rw [e1, if_neg (by omega)]
        exact ih _ h.2 hov
      · rw [if_pos (by omega), if_neg (by omega)]

theorem parseUintLoop_not_digits (s0 : String) (cs : List Char) (n : Nat)
    (h : cs.all isDecimalDigit = false) :
    (∃ v, strconv.parseUintLoop s0 10 ((2 ^ 64 - 1) / 10 + 1) (2 ^ 64 - 1) n cs
        = (v, some (.numSyntax "ParseUint" s0))) ∨
    strconv.parseUintLoop s0 10 ((2 ^ 64 - 1) / 10 + 1) (2 ^ 64 - 1) n cs
        = (2 ^ 64 - 1, some (.numRange "ParseUint" s0)) := by
  induction cs generalizing n with
  | nil => simp at h
  | cons c rest ih =>
    by_cases hc : isDecimalDigit c = true
    · have hrest : rest.all isDecimalDigit = false := by
        simpa [List.all_cons, hc] using h
      obtain ⟨hd, hd10⟩ := digitVal_of_digit c hc
      simp only [strconv.parseUintLoop, hd]
      rw [if_neg (by omega)]
      split
      · exact .inr rfl
      · split
        · exact .inr rfl
        · exact ih _ hrest
    · rcases digitVal_of_not_digit c (by simpa using hc) with hd | ⟨d, hd, hd10⟩
      · exact .inl ⟨0, by simp only [strconv.parseUintLoop, hd]⟩
      · exact .inl ⟨0, by simp only [strconv.parseUintLoop, hd, if_pos hd10]⟩

/-- What `strconv.ParseUint(s, 10, bitSize)` returns for `bitSize` 0 or 64. -/
theorem ParseUint_base10 (cs : List Char) (b : Nat) (hb : b = 0 ∨ b = 64) :
    (∃ n, natLiteral cs = some n ∧ n < 2 ^ 64 ∧
      strconv.ParseUint (String.mk cs) 10 b = (n, none)) ∨
    ((∀ n, natLiteral cs = some n → 2 ^ 64 ≤ n) ∧
      ((∃ v e, strconv.ParseUint (String.mk cs) 10 b = (v, some e) ∧
          ∀ fn num, e ≠ .numRange fn num) ∨
        (∃ e, strconv.ParseUint (String.mk cs) 10 b = (2 ^ 64 - 1, some e)))) := by
  have hms : (2 : Nat) ^ (if b = 0 then strconv.IntSize else b) - 1 = 2 ^ 64 - 1 := by
    rcases hb with hb | hb <;> simp [hb, strconv.IntSize]
  have hb64 : ¬ b > 64 := by rcases hb with hb | hb <;> omega
  by_cases hnil : cs = []
  · subst hnil
    refine .inr ⟨by simp [natLiteral], .inl ⟨0, .numSyntax "ParseUint" "", ?_, ?_⟩⟩
    · rfl
    · simp
  · have hne : String.mk cs ≠ "" := by
      intro hc
      exact hnil (by simpa using congrArg String.data hc)
    have hP : strconv.ParseUint (String.mk cs) 10 b =
        strconv.parseUintLoop (String.mk cs) 10 ((2 ^ 64 - 1) / 10 + 1) (2 ^ 64 - 1) 0 cs := by
      unfold strconv.ParseUint
      rw [if_neg hne, if_neg (by omega), if_neg hb64, hms]
    by_cases hall : cs.all isDecimalDigit = true
    · have hloop := parseUintLoop_digits (String.mk cs) cs 0 hall (by norm_num)
      by_cases hlt : digitsValue cs < 2 ^ 64
      · refine .inl ⟨digitsValue cs, by simp [natLiteral, hnil, hall], hlt, ?_⟩
        rw [hP, hloop]
        exact if_pos hlt
      · refine .inr ⟨?_, .inr ⟨.numRange "ParseUint" (String.mk cs), ?_⟩⟩
        · intro n hn
          simp only [natLiteral, hnil, hall, ne_eq, not_false_eq_true, and_self, if_true,
            Option.some.injEq] at hn
          omega
        · rw [hP, hloop]
          exact if_neg hlt
    · have hall' : cs.all isDecimalDigit = false := by simpa using hall
      refine .inr ⟨by simp [natLiteral, hall'], ?_⟩
      rcases parseUintLoop_not_digits (String.mk cs) cs 0 hall' with ⟨v, hv⟩ | hv
      · exact .inl ⟨v, .numSyntax "ParseUint" (String.mk cs), hP.trans hv, by simp⟩
      · exact .inr ⟨.numRange "ParseUint" (String.mk cs), hP.trans hv⟩

theorem int64OfUint64_small (n : Nat) (h : n < 2 ^ 63) : int64OfUint64 n = (n : Int) := by
  unfold int64OfUint64
  have h1 : n % 2 ^ 64 = n := Nat.mod_eq_of_lt (by omega)
  rw [h1, if_pos h]

theorem wrapInt64_neg_int64OfUint64 (n : Nat) (h : n ≤ 2 ^ 63) :
    wrapInt64 (- int64OfUint64 n) = - (n : Int) := by
  unfold wrapInt64 int64OfUint64
  have h1 : n % 2 ^ 64 = n := Nat.mod_eq_of_lt (by omega)
  rw [h1]
  split <;> omega

/-- The tail of `strconv.ParseInt` after the call of `ParseUint`, for a text
whose digits start at `cs`. -/
theorem ParseInt_finish (s : String) (b : Nat) (hb : b = 0 ∨ b = 64) (neg : Bool)
    (cs : List Char) (hs : s ≠ "")
    (hneg : (s.data.head? == some '-') = neg)
    (harg : (if (s.data.head? == some '+' || neg) = true
      then String.mk s.data.tail else s) = String.mk cs) :
    (∃ n : Nat, natLiteral cs = some n ∧
      inInt64 (if neg then - (n : Int) else (n : Int)) ∧
      strconv.ParseInt s 10 b = .ok (if neg then - (n : Int) else (n : Int))) ∨
    ((∀ n : Nat, natLiteral cs = some n →
        ¬ inInt64 (if neg then - (n : Int) else (n : Int))) ∧
      ∃ e, strconv.ParseInt s 10 b = .error e) := by
  have hcut : (2 : Nat) ^ ((if b = 0 then strconv.IntSize else b) - 1) = 2 ^ 63 := by
    rcases hb with hb | hb <;> simp [hb, strconv.IntSize]
  unfold strconv.ParseInt
  rw [if_neg hs]
  simp only [hneg, hcut]
  rw [harg]
  rcases ParseUint_base10 cs b hb with ⟨n, hn, hlt, hP⟩ | ⟨hno, ⟨v, e, hP, he⟩ | ⟨e, hP⟩⟩
  · rw [hP]
    cases neg
    · by_cases h63 : n < 9223372036854775808
      · refine .inl ⟨n, hn, by simp [inInt64]; omega, ?_⟩
        simp [not_le.mpr h63, int64OfUint64_small n (by omega)]
      · refine .inr ⟨?_, ?_⟩
        · intro n' hn'
          rw [hn] at hn'
          injection hn' with hn'
          subst hn'
          simp [inInt64]
          omega
        · exact ⟨.numRange "ParseInt" s, by simp [not_lt.mp h63]⟩
    · by_cases h63 : n ≤ 9223372036854775808
      · refine .inl ⟨n, hn, by simp [inInt64]; omega, ?_⟩
        simp [not_lt.mpr h63, wrapInt64_neg_int64OfUint64 n (by omega)]
      · refine .inr ⟨?_, ?_⟩
        · intro n' hn'
          rw [hn] at hn'
          injection hn' with hn'
          subst hn'
          simp [inInt64]
          omega
        · exact ⟨.numRange "ParseInt" s, by simp [not_le.mp h63]⟩
  · refine .inr ⟨?_, ?_⟩
    · intro n hn
      have := hno n hn
      cases neg <;> simp [inInt64] <;> omega
    · rw [hP]
      cases e with
      | msg t => exact ⟨_, rfl⟩
      | numSyntax f n => exact ⟨_, rfl⟩
      | numRange f n => exact absurd rfl (he f n)
      | numBase f n => exact ⟨_, rfl⟩
      | numBitSize f n => exact ⟨_, rfl⟩
  · refine .inr ⟨?_, ?_⟩
    · intro n hn
      have := hno n hn
      cases neg <;> simp [inInt64] <;> omega
    · rw [hP]
      cases e with
      | msg t => exact ⟨_, rfl⟩
      | numSyntax f n => exact ⟨_, rfl⟩
      | numRange f n => cases neg <;> exact ⟨_, rfl⟩
      | numBase f n => exact ⟨_, rfl⟩
      | numBitSize f n => exact ⟨_, rfl⟩

theorem intLiteral_none_or_out (s : String) (cs : List Char) (f : Nat → Int)
    (hlit : intLiteral s = (natLiteral cs).map f)
    (hno : ∀ n : Nat, natLiteral cs = some n → ¬ inInt64 (f n)) :
    ∀ n, intLiteral s = some n → ¬ inInt64 n := by
  intro n hn
  rw [hlit] at hn
  cases hc : natLiteral cs with
  | none => simp [hc] at hn
  | some m =>
    simp only [hc, Option.map_some', Option.some.injEq] at hn
    subst hn
    exact hno m hc

/-- What `strconv.ParseInt(s, 10, bitSize)` returns for `bitSize` 0 or 64: the
integer a base-10 literal denotes when it lies in the `int64` range, and an
error for every other text. -/
theorem ParseInt_base10 (s : String) (b : Nat) (hb : b = 0 ∨ b = 64) :
    (∃ n, intLiteral s = some n ∧ inInt64 n ∧ strconv.ParseInt s 10 b = .ok n) ∨
    ((∀ n, intLiteral s = some n → ¬ inInt64 n) ∧
      ∃ e, strconv.ParseInt s 10 b = .error e) := by
  obtain ⟨cs⟩ := s
  cases cs with
  | nil => exact .inr ⟨by simp [intLiteral], ⟨.numSyntax "ParseInt" "", rfl⟩⟩
  | cons c rest =>
    have hs : String.mk (c :: rest) ≠ "" := by
      intro hc
      exact List.cons_ne_nil c rest (by simpa using congrArg String.data hc)
    by_cases hplus : c = '+'
    · subst hplus
      have hlit : intLiteral (String.mk ('+' :: rest))
          = (natLiteral rest).map (fun (n : Nat) => (n : Int)) := by simp [intLiteral]
      rcases ParseInt_finish (String.mk ('+' :: rest)) b hb false rest hs (by simp) (by simp)
        with ⟨n, hn, hr, hP⟩ | ⟨hno, hE⟩
      · exact .inl ⟨(n : Int), by simp [hlit, hn], by simpa using hr, by simpa using hP⟩
      · exact .inr ⟨intLiteral_none_or_out _ rest _ hlit (by simpa using hno), hE⟩
    · by_cases hminus : c = '-'
      · subst hminus
        have hlit : intLiteral (String.mk ('-' :: rest))
            = (natLiteral rest).map (fun (n : Nat) => - (n : Int)) := by simp [intLiteral]
        rcases ParseInt_finish (String.mk ('-' :: rest)) b hb true rest hs (by simp) (by simp)
          with ⟨n, hn, hr, hP⟩ | ⟨hno, hE⟩
        · exact .inl ⟨- (n : Int), by simp [hlit, hn], by simpa using hr, by simpa using hP⟩
        · exact .inr ⟨intLiteral_none_or_out _ rest _ hlit (by simpa using hno), hE⟩
      · have hlit : intLiteral (String.mk (c :: rest))
            = (natLiteral (c :: rest)).map (fun (n : Nat) => (n : Int)) := by
          simp [intLiteral, hplus, hminus]
        rcases ParseInt_finish (String.mk (c :: rest)) b hb false (c :: rest) hs
            (by simp [hminus]) (by simp [hplus])
          with ⟨n, hn, hr, hP⟩ | ⟨hno, hE⟩
        · exact .inl ⟨(n : Int), by simp [hlit, hn], by simpa using hr, by simpa using hP⟩
        · exact .inr ⟨intLiteral_none_or_out _ (c :: rest) _ hlit (by simpa using hno), hE⟩

/-! ## Navigation: append, set, read back -/

/-- C1 as stated fails: on the Array-kind value `[1]`, `ArrayAdd` with a nil
`*[]interface{}`, or with a raw slice that holds a nil
`*map[string]interface{}`, does not return: the type switch dereferences the
pointer and panics, so there is no `ArrayGet(n)` after it. -/
theorem ArrayAdd_then_ArrayGet_counterexample :
    (⟨[[.int 1]], []⟩ : Heap).arrays[0]? = some [.int 1] ∧
    QJson.ArrayAdd ⟨[[.int 1]], []⟩ ⟨.jsonArray 0⟩ .nilSlicePtr
      = .error .nilDereference ∧
    QJson.ArrayAdd ⟨[[.int 1]], []⟩ ⟨.jsonArray 0⟩ (.slice [.int 2, .nilMapPtr])
      = .error .nilDereference :=
  ⟨rfl, rfl, rfl⟩

/-- C1, amended: on an Array-kind value whose cell holds `xs` (length `n`),
`ArrayAdd` with any item `x` that holds no nil pointer to a slice or map, at
any depth, returns normally with the receiver as its result, the cell then
holds `xs ++ [v]`, and `ArrayGet(n)` returns through the present branch of
`Get` a handle on `v`, where `v` is what the type switch hands to `Add`: `x`
itself unless `x` is a raw slice or map, and otherwise the pointer to the
container `NewjsonArray` / `NewjsonObject` returns for it, which the append
leaves as built. -/
theorem ArrayAdd_then_ArrayGet (σ : Heap) (p : Nat) (xs : List Iface) (x : Iface)
    (h : σ.arrays[p]? = some xs) (hx : x.noNilPtr = true) :
    ∃ σ1 v σ2, wrap σ x = .ok (σ1, v) ∧ Wrapped σ x σ1 v ∧
      QJson.ArrayAdd σ ⟨.jsonArray p⟩ x = .ok (σ2, ⟨.jsonArray p⟩) ∧
      Frame σ1 σ2 (· = p) (fun _ => False) ∧
      σ2.arrays[p]? = some (xs ++ [v]) ∧
      jsonArray.Get σ2 p xs.length = .ok (v, true) ∧
      QJson.ArrayGet σ2 ⟨.jsonArray p⟩ xs.length = .ok ⟨v⟩ := by
  obtain ⟨σ1, v, hw, f1⟩ := wrap_ok x σ hx
  have hp : p < σ.arrays.length := by
    by_contra hc
    rw [List.getElem?_eq_none (not_lt.mp hc)] at h
    exact Option.noConfusion h
  have hp1 : p < σ1.arrays.length := lt_of_lt_of_le hp f1.1
  have hc1 : σ1.arrays[p]? = some xs := (f1.2.2.1 p hp (fun hf => hf)).trans h
  have hx1 : σ1.arrays[p] = xs := by
    rw [List.getElem?_eq_getElem hp1] at hc1
    exact Option.some.inj hc1
  obtain ⟨σ2, ha, f2, hc2⟩ := jsonArray_Add_ok hp1 v
  rw [hx1] at hc2
  refine ⟨σ1, v, σ2, hw, wrap_wrapped σ x σ1 v hw, ?_, f2, hc2,
    jsonArray_Get_last σ2 p xs v hc2, ?_⟩
  · simp [QJson.ArrayAdd, QJson.asArray, hw, ha]
  · simp [QJson.ArrayGet, QJson.asArray, jsonArray_Get_last σ2 p xs v hc2]

/-- C1 at a concrete input: appending the raw slice `[true]` to the array
`[1]` at address 0. -/
theorem ArrayAdd_then_ArrayGet_witness :
    ((⟨[[.int 1]], []⟩ : Heap).arrays[0]? = some [.int 1] ∧
      (Iface.slice [.bool true]).noNilPtr = true) ∧
    ∃ σ1 v σ2, wrap ⟨[[.int 1]], []⟩ (.slice [.bool true]) = .ok (σ1, v) ∧
      Wrapped ⟨[[.int 1]], []⟩ (.slice [.bool true]) σ1 v ∧
      QJson.ArrayAdd ⟨[[.int 1]], []⟩ ⟨.jsonArray 0⟩ (.slice [.bool true])
        = .ok (σ2, ⟨.jsonArray 0⟩) ∧
      Frame σ1 σ2 (· = 0) (fun _ => False) ∧
      σ2.arrays[0]? = some ([.int 1] ++ [v]) ∧
      jsonArray.Get σ2 0 ([Iface.int 1].length) = .ok (v, true) ∧
      QJson.ArrayGet σ2 ⟨.jsonArray 0⟩ ([Iface.int 1].length) = .ok ⟨v⟩ :=
  ⟨⟨rfl, rfl⟩,
    ArrayAdd_then_ArrayGet ⟨[[.int 1]], []⟩ 0 [.int 1] (.slice [.bool true]) rfl rfl⟩

/-- C2 as stated fails: on the Object-kind value `{a: 1}`, `ObjectAdd` with a
nil `*map[string]interface{}`, or with a raw map that holds a nil
`*[]interface{}`, does not return: the type switch dereferences the pointer
and panics, so there is no `ObjectGet(k)` after it. -/
theorem ObjectAdd_then_ObjectGet_counterexample :
    (⟨[], [[("a", .int 1)]]⟩ : Heap).objects[0]? = some [("a", .int 1)] ∧
    QJson.ObjectAdd ⟨[], [[("a", .int 1)]]⟩ ⟨.jsonObject 0⟩ "k" .nilMapPtr
      = .error .nilDereference ∧
    QJson.ObjectAdd ⟨[], [[("a", .int 1)]]⟩ ⟨.jsonObject 0⟩ "k" (.map [("b", .nilSlicePtr)])
      = .error .nilDereference :=
  ⟨rfl, rfl, rfl⟩

/-- C2, amended: on an Object-kind value whose cell holds the map `m`,
`ObjectAdd` with any key `k` and any item `x` that holds no nil pointer to a
slice or map, at any depth, returns normally with the receiver as its result,
the cell then holds `m` with `k` set to `v`, `ObjectGet(k)` returns through the
present branch of `Get` a handle on `v` and `Exists(k)` is true, where `v` is
what the type switch hands to `Add` (`x` itself unless `x` is a raw slice or
map). Nothing is assumed about `k` being new, so a second write for a key
overwrites the first, and a map without repeated keys stays so. -/
theorem ObjectAdd_then_ObjectGet (σ : Heap) (p : Nat) (m : List (String × Iface))
    (k : String) (x : Iface) (h : σ.objects[p]? = some m) (hx : x.noNilPtr = true) :
    ∃ σ1 v σ2, wrap σ x = .ok (σ1, v) ∧ Wrapped σ x σ1 v ∧
      QJson.ObjectAdd σ ⟨.jsonObject p⟩ k x = .ok (σ2, ⟨.jsonObject p⟩) ∧
      Frame σ1 σ2 (fun _ => False) (· = p) ∧
      σ2.objects[p]? = some (mapSet m k v) ∧
      jsonObject.Get σ2 p k = .ok (v, true) ∧
      QJson.ObjectGet σ2 ⟨.jsonObject p⟩ k = .ok ⟨v⟩ ∧
      QJson.Exists σ2 ⟨.jsonObject p⟩ k = .ok true ∧
      ((m.map Prod.fst).Nodup → ((mapSet m k v).map Prod.fst).Nodup) := by
  obtain ⟨σ1, v, hw, f1⟩ := wrap_ok x σ hx
  have hp : p < σ.objects.length := by
    by_contra hc
    rw [List.getElem?_eq_none (not_lt.mp hc)] at h
    exact Option.noConfusion h
  have hp1 : p < σ1.objects.length := lt_of_lt_of_le hp f1.2.1
  have hc1 : σ1.objects[p]? = some m := (f1.2.2.2 p hp (fun hf => hf)).trans h
  have hx1 : σ1.objects[p] = m := by
    rw [List.getElem?_eq_getElem hp1] at hc1
    exact Option.some.inj hc1
  obtain ⟨σ2, ha, f2, hc2⟩ := jsonObject_Add_ok hp1 k v
  rw [hx1] at hc2
  have hg : jsonObject.Get σ2 p k = .ok (v, true) := by
    simp [jsonObject.Get, hc2, mapGet_mapSet_same]
  refine ⟨σ1, v, σ2, hw, wrap_wrapped σ x σ1 v hw, ?_, f2, hc2, hg, ?_, ?_,
    nodup_keys_mapSet m k v⟩
  · simp [QJson.ObjectAdd, QJson.asObject, hw, ha]
  · simp [QJson.ObjectGet, QJson.asObject, hg]
  · simp [QJson.Exists, QJson.asObject, hg]

/-- C2 at a concrete input: writing `"a"` a second time into the object
`{a: 1, b: 2}` at address 0. -/
theorem ObjectAdd_then_ObjectGet_witness :
    ((⟨[], [[("a", .int 1), ("b", .int 2)]]⟩ : Heap).objects[0]?
        = some [("a", .int 1), ("b", .int 2)] ∧
      (Iface.string "z").noNilPtr = true) ∧
    ∃ σ1 v σ2, wrap ⟨[], [[("a", .int 1), ("b", .int 2)]]⟩ (.string "z") = .ok (σ1, v) ∧
      Wrapped ⟨[], [[("a", .int 1), ("b", .int 2)]]⟩ (.string "z") σ1 v ∧
      QJson.ObjectAdd ⟨[], [[("a", .int 1), ("b", .int 2)]]⟩ ⟨.jsonObject 0⟩ "a"
        (.string "z") = .ok (σ2, ⟨.jsonObject 0⟩) ∧
      Frame σ1 σ2 (fun _ => False) (· = 0) ∧
      σ2.objects[0]? = some (mapSet [("a", .int 1), ("b", .int 2)] "a" v) ∧
      jsonObject.Get σ2 0 "a" = .ok (v, true) ∧
      QJson.ObjectGet σ2 ⟨.jsonObject 0⟩ "a" = .ok ⟨v⟩ ∧
      QJson.Exists σ2 ⟨.jsonObject 0⟩ "a" = .ok true ∧
      (([("a", Iface.int 1), ("b", Iface.int 2)].map Prod.fst).Nodup →
        ((mapSet [("a", .int 1), ("b", .int 2)] "a" v).map Prod.fst).Nodup) :=
  ⟨⟨rfl, rfl⟩, ObjectAdd_then_ObjectGet ⟨[], [[("a", .int 1), ("b", .int 2)]]⟩ 0
    [("a", .int 1), ("b", .int 2)] "a" (.string "z") rfl rfl⟩

/-! ## Navigation: bounds and wrong kinds -/

/-- C3: what `ArrayGet(v, i)` does for every value `v` and integer `i`. On a
value that is not Array-kind it returns the absent handle. On an Array-kind
value whose cell holds `xs` it returns a handle on the element at `i` when
`0 ≤ i < len`, the absent handle when `len ≤ i`, and for every negative `i` it
passes the guard `len > index` and panics in the indexing `(*this)[index]`. -/
theorem ArrayGet_cases (σ : Heap) (v : QJson) (i : Int) :
    (v.IsArray = false → QJson.ArrayGet σ v i = .ok ⟨.nil⟩) ∧
    (∀ p xs, v.data = .jsonArray p → σ.arrays[p]? = some xs →
      (0 ≤ i → i < xs.length →
        ∃ x, xs[i.toNat]? = some x ∧ QJson.ArrayGet σ v i = .ok ⟨x⟩) ∧
      ((xs.length : Int) ≤ i → QJson.ArrayGet σ v i = .ok ⟨.nil⟩) ∧
      (i < 0 → QJson.ArrayGet σ v i = .error .indexOutOfRange)) := by
  refine ⟨?_, ?_⟩
  · intro hv
    obtain ⟨d⟩ := v
    cases d <;> first | rfl | simp [QJson.IsArray] at hv
  · intro p xs hd hc
    obtain ⟨d⟩ := v
    simp only at hd
    subst hd
    refine ⟨?_, ?_, ?_⟩
    · intro h0 hlt
      have hn : i.toNat < xs.length := by omega
      refine ⟨xs[i.toNat], List.getElem?_eq_getElem hn, ?_⟩
      simp [QJson.ArrayGet, QJson.asArray, jsonArray.Get, hc, hlt, not_lt.mpr h0,
        List.getElem?_eq_getElem hn]
    · intro hge
      simp [QJson.ArrayGet, QJson.asArray, jsonArray.Get, hc, not_lt.mpr hge]
    · intro hneg
      have hlt : i < (xs.length : Int) := by omega
      simp [QJson.ArrayGet, QJson.asArray, jsonArray.Get, hc, hlt, hneg]

/-- C3 at the failing input: index `-1` on the one-element array `[7]`
panics with an index out of range. -/
theorem ArrayGet_cases_witness :
    QJson.ArrayGet ⟨[[.int 7]], []⟩ ⟨.jsonArray 0⟩ (-1) = .error .indexOutOfRange :=
  ((ArrayGet_cases ⟨[[.int 7]], []⟩ ⟨.jsonArray 0⟩ (-1)).2 0 [.int 7] rfl rfl).2.2
    (by decide)

/-- C4: wrong-kind navigation. On a value that is not Array-kind `ArrayAdd`
returns the receiver over an unchanged heap and `ArrayGet`, `ArrayNewArray`,
`ArrayNewObject` return the absent handle over an unchanged heap. On a value
that is not Object-kind `ObjectAdd` returns the receiver over an unchanged
heap, `ObjectGet` returns the absent handle, `Exists` returns false, and
`ObjectNewObject`, `ObjectNewArray` return the absent handle (the container
they allocated for the argument stays unreferenced; no existing cell changes).
All of them return normally. -/
theorem wrong_kind_navigation (σ : Heap) (v : QJson) (x : Iface) (k : String) (i : Int) :
    (v.IsArray = false →
      QJson.ArrayAdd σ v x = .ok (σ, v) ∧
      QJson.ArrayGet σ v i = .ok ⟨.nil⟩ ∧
      QJson.ArrayNewArray σ v = .ok (σ, ⟨.nil⟩) ∧
      QJson.ArrayNewObject σ v = .ok (σ, ⟨.nil⟩)) ∧
    (v.IsObject = false →
      QJson.ObjectAdd σ v k x = .ok (σ, v) ∧
      QJson.ObjectGet σ v k = .ok ⟨.nil⟩ ∧
      QJson.Exists σ v k = .ok false ∧
      (∃ σ', QJson.ObjectNewObject σ v k = .ok (σ', ⟨.nil⟩)
        ∧ Frame σ σ' (fun _ => False) (fun _ => False)) ∧
      (∃ σ', QJson.ObjectNewArray σ v k = .ok (σ', ⟨.nil⟩)
        ∧ Frame σ σ' (fun _ => False) (fun _ => False))) := by
  obtain ⟨d⟩ := v
  refine ⟨?_, ?_⟩
  · intro hv
    cases d <;> first
      | exact ⟨rfl, rfl, rfl, rfl⟩
      | simp [QJson.IsArray] at hv
  · intro hv
    cases d <;> first
      | exact ⟨rfl, rfl, rfl, ⟨_, rfl, Frame_newObject σ _ _⟩, ⟨_, rfl, Frame_newArray σ _ _⟩⟩
      | simp [QJson.IsObject] at hv

/-- C4 at a concrete input: array operations on an Object-rooted document and
object operations on a string leaf. -/
theorem wrong_kind_navigation_witness :
    (QJson.ArrayAdd ⟨[], [[]]⟩ ⟨.jsonObject 0⟩ (.int 1) = .ok (⟨[], [[]]⟩, ⟨.jsonObject 0⟩) ∧
      QJson.ArrayGet ⟨[], [[]]⟩ ⟨.jsonObject 0⟩ (-3) = .ok ⟨.nil⟩ ∧
      QJson.ArrayNewArray ⟨[], [[]]⟩ ⟨.jsonObject 0⟩ = .ok (⟨[], [[]]⟩, ⟨.nil⟩) ∧
      QJson.ArrayNewObject ⟨[], [[]]⟩ ⟨.jsonObject 0⟩ = .ok (⟨[], [[]]⟩, ⟨.nil⟩)) ∧
    (QJson.ObjectAdd ⟨[], [[]]⟩ ⟨.string "s"⟩ "k" (.int 1) = .ok (⟨[], [[]]⟩, ⟨.string "s"⟩) ∧
      QJson.ObjectGet ⟨[], [[]]⟩ ⟨.string "s"⟩ "k" = .ok ⟨.nil⟩ ∧
      QJson.Exists ⟨[], [[]]⟩ ⟨.string "s"⟩ "k" = .ok false ∧
      (∃ σ', QJson.ObjectNewObject ⟨[], [[]]⟩ ⟨.string "s"⟩ "k" = .ok (σ', ⟨.nil⟩)
        ∧ Frame ⟨[], [[]]⟩ σ' (fun _ => False) (fun _ => False)) ∧
      (∃ σ', QJson.ObjectNewArray ⟨[], [[]]⟩ ⟨.string "s"⟩ "k" = .ok (σ', ⟨.nil⟩)
        ∧ Frame ⟨[], [[]]⟩ σ' (fun _ => False) (fun _ => False))) :=
  ⟨(wrong_kind_navigation ⟨[], [[]]⟩ ⟨.jsonObject 0⟩ (.int 1) "k" (-3)).1 rfl,
   (wrong_kind_navigation ⟨[], [[]]⟩ ⟨.string "s"⟩ (.int 1) "k" (-3)).2 rfl⟩

/-! ## Coercion: the absent handle, Null, and containers -/

/-- C5: a missing position yields the handle on Null, and that handle coerces
as Null. For an Object-kind value whose map has no entry for `k`, `ObjectGet`
returns the handle on nil; for an Array-kind value of length `n` and `i ≥ n`,
`ArrayGet` returns the handle on nil; on that handle, whatever defaults are
supplied, `MustBool` is false, `MustInt` is 0, `MustFloat` is 0, `MustString`
is `"null"`, and `ObjectGet` / `ArrayGet` return the handle on nil again. -/
theorem absent_handle_is_null (fp : FloatOps) (σ : Heap) (p : Nat) :
    (∀ m k, σ.objects[p]? = some m → mapGet m k = none →
      QJson.ObjectGet σ ⟨.jsonObject p⟩ k = .ok ⟨.nil⟩) ∧
    (∀ xs (i : Int), σ.arrays[p]? = some xs → (xs.length : Int) ≤ i →
      QJson.ArrayGet σ ⟨.jsonArray p⟩ i = .ok ⟨.nil⟩) ∧
    (∀ dB dI dF dS,
      QJson.MustBool ⟨.nil⟩ dB = false ∧ QJson.MustInt fp ⟨.nil⟩ dI = 0 ∧
      QJson.MustFloat fp ⟨.nil⟩ dF = Float64.zero ∧
      QJson.MustString fp ⟨.nil⟩ dS = "null") ∧
    (∀ σ' k' (i' : Int),
      QJson.ObjectGet σ' ⟨.nil⟩ k' = .ok ⟨.nil⟩ ∧
      QJson.ArrayGet σ' ⟨.nil⟩ i' = .ok ⟨.nil⟩) := by
  refine ⟨?_, ?_, fun _ _ _ _ => ⟨rfl, rfl, rfl, rfl⟩, fun _ _ _ => ⟨rfl, rfl⟩⟩
  · intro m k hc hk
    simp [QJson.ObjectGet, QJson.asObject, jsonObject.Get, hc, hk]
  · intro xs i hc hi
    simp [QJson.ArrayGet, QJson.asArray, jsonArray.Get, hc, not_lt.mpr hi]

/-- C5 at a concrete input: key `"b"` is missing from `{a: 1}` and index 1 is
past the end of `[1]`. -/
theorem absent_handle_is_null_witness :
    (mapGet [("a", .int 1)] "b" = none ∧ ([Iface.int 1].length : Int) ≤ 1) ∧
    ∀ fp : FloatOps,
      QJson.ObjectGet ⟨[[.int 1]], [[("a", .int 1)]]⟩ ⟨.jsonObject 0⟩ "b" = .ok ⟨.nil⟩ ∧
      QJson.ArrayGet ⟨[[.int 1]], [[("a", .int 1)]]⟩ ⟨.jsonArray 0⟩ 1 = .ok ⟨.nil⟩ ∧
      QJson.MustBool ⟨.nil⟩ [true] = false ∧ QJson.MustInt fp ⟨.nil⟩ [5] = 0 ∧
      QJson.MustFloat fp ⟨.nil⟩ [Float64.one] = Float64.zero ∧
      QJson.MustString fp ⟨.nil⟩ ["d"] = "null" :=
  ⟨⟨rfl, by decide⟩, fun fp =>
    ⟨(absent_handle_is_null fp ⟨[[.int 1]], [[("a", .int 1)]]⟩ 0).1
        [("a", .int 1)] "b" rfl rfl,
     (absent_handle_is_null fp ⟨[[.int 1]], [[("a", .int 1)]]⟩ 0).2.1
        [.int 1] 1 rfl (by decide),
     (absent_handle_is_null fp ⟨[[.int 1]], [[("a", .int 1)]]⟩ 0).2.2.1
        [true] [5] [Float64.one] ["d"]⟩⟩

/-- C6: on an Array-kind or Object-kind value each primitive coercion takes
its error path: it returns the first supplied default, and the zero value of
its type (false, 0, 0.0, the empty string) when none is supplied. -/
theorem container_coercion_default (fp : FloatOps) (v : QJson)
    (hv : v.IsArray = true ∨ v.IsObject = true) :
    (∀ d rest, QJson.MustBool v (d :: rest) = d) ∧ QJson.MustBool v [] = false ∧
    (∀ d rest, QJson.MustInt fp v (d :: rest) = d) ∧ QJson.MustInt fp v [] = 0 ∧
    (∀ d rest, QJson.MustFloat fp v (d :: rest) = d) ∧
      QJson.MustFloat fp v [] = Float64.zero ∧
    (∀ d rest, QJson.MustString fp v (d :: rest) = d) ∧ QJson.MustString fp v [] = "" := by
  obtain ⟨d⟩ := v
  cases d <;> first
    | exact ⟨fun _ _ => rfl, rfl, fun _ _ => rfl, rfl, fun _ _ => rfl, rfl, fun _ _ => rfl, rfl⟩
    | simp [QJson.IsArray, QJson.IsObject] at hv

/-- C6 at a concrete input: `MustInt(array, 42) = 42` and `MustInt(array) = 0`,
and the empty string for `MustString(object)`. -/
theorem container_coercion_default_witness :
    (QJson.IsArray ⟨.jsonArray 0⟩ = true ∨ QJson.IsObject ⟨.jsonArray 0⟩ = true) ∧
    (QJson.IsArray ⟨.jsonObject 0⟩ = true ∨ QJson.IsObject ⟨.jsonObject 0⟩ = true) ∧
    ∀ fp : FloatOps, QJson.MustInt fp ⟨.jsonArray 0⟩ [42] = 42 ∧
      QJson.MustInt fp ⟨.jsonArray 0⟩ [] = 0 ∧ QJson.MustString fp ⟨.jsonObject 0⟩ [] = "" :=
  ⟨.inl rfl, .inr rfl, fun fp =>
    ⟨(container_coercion_default fp ⟨.jsonArray 0⟩ (.inl rfl)).2.2.1 42 [],
     (container_coercion_default fp ⟨.jsonArray 0⟩ (.inl rfl)).2.2.2.1,
     (container_coercion_default fp ⟨.jsonObject 0⟩ (.inr rfl)).2.2.2.2.2.2.2⟩⟩

/-- C7: Null always converts and the default is never used: for every list of
supplied defaults `MustBool` is false, `MustInt` is 0, `MustFloat` is 0 and
`MustString` is the text `"null"`, which is not the empty string. -/
theorem null_coercion (fp : FloatOps) (dB : List Bool) (dI : List Int)
    (dF : List Float64) (dS : List String) :
    QJson.MustBool ⟨.nil⟩ dB = false ∧ QJson.MustInt fp ⟨.nil⟩ dI = 0 ∧
    QJson.MustFloat fp ⟨.nil⟩ dF = Float64.zero ∧
    QJson.MustString fp ⟨.nil⟩ dS = "null" ∧ QJson.MustString fp ⟨.nil⟩ dS ≠ "" :=
  ⟨rfl, rfl, rfl, rfl, by show "null" ≠ ""; decide⟩

/-! ## Coercion of text -/

/-- C8 as stated fails: the text `"t"` is none of `"true"`, `"1"`, `"false"`,
`"0"`, so the claim gives the default `false`, and `MustBool` gives true. -/
theorem MustBool_string_counterexample :
    specBoolOfString "t" false = false ∧ QJson.MustBool ⟨.string "t"⟩ [false] = true := by
  decide

/-- C8, amended: `MustBool` on a String is true for the texts `"1"`, `"t"`,
`"T"`, `"TRUE"`, `"true"`, `"True"`, false for `"0"`, `"f"`, `"F"`, `"FALSE"`,
`"false"`, `"False"`, and for every other text the first supplied default,
false when none is supplied; so it agrees with the four literals the
specification names, and `MustBool("not-a-bool", true)` is true. -/
theorem MustBool_string (s : String) (args : List Bool) :
    QJson.MustBool ⟨.string s⟩ args =
      (if s ∈ ["1", "t", "T", "TRUE", "true", "True"] then true
       else if s ∈ ["0", "f", "F", "FALSE", "false", "False"] then false
       else qutils.Default false args 0) ∧
    (∀ d, QJson.MustBool ⟨.string "true"⟩ [d] = true ∧ QJson.MustBool ⟨.string "1"⟩ [d] = true ∧
      QJson.MustBool ⟨.string "false"⟩ [d] = false ∧ QJson.MustBool ⟨.string "0"⟩ [d] = false) ∧
    QJson.MustBool ⟨.string "not-a-bool"⟩ [true] = true ∧
    QJson.MustBool ⟨.string "not-a-bool"⟩ [] = false := by
  refine ⟨?_, fun d => ⟨rfl, rfl, rfl, rfl⟩, rfl, rfl⟩
  simp only [QJson.MustBool, convertBool, strconv.ParseBool, List.mem_cons, List.mem_singleton,
    List.mem_nil_iff, or_false]
  split_ifs <;> rfl

/-- C9: `MustInt` on a String returns the integer `n` when the text is a
base-10 integer literal (an optional sign `+` or `-`, then one or more decimal
digits) denoting `n` within the `int64` range, and for every other text the
first supplied default, 0 when none is supplied; `"3.5"` and
`"9223372036854775808"` are such other texts. -/
theorem MustInt_string (fp : FloatOps) (s : String) (args : List Int) :
    (QJson.MustInt fp ⟨.string s⟩ args =
      match intLiteral s with
      | some n => if inInt64 n then n else qutils.Default 0 args 0
      | none => qutils.Default 0 args 0) ∧
    (∀ d, QJson.MustInt fp ⟨.string "3.5"⟩ [d] = d) ∧
    QJson.MustInt fp ⟨.string "3.5"⟩ [] = 0 ∧
    (∀ d, QJson.MustInt fp ⟨.string "9223372036854775808"⟩ [d] = d) ∧
    QJson.MustInt fp ⟨.string "-9223372036854775808"⟩ [5] = -9223372036854775808 := by
  refine ⟨?_, fun d => rfl, rfl, fun d => rfl, rfl⟩
  rcases ParseInt_base10 s 0 (.inl rfl) with ⟨n, hn, hr, hP⟩ | ⟨hno, e, hE⟩
  · simp [QJson.MustInt, convertInt64, hP, hn, hr]
  · simp only [QJson.MustInt, convertInt64, hE]
    cases hl : intLiteral s with
    | none => rfl
    | some n => simp [hno n hl]

/-- C10 as stated fails: the decimal text `1.0` has the integer value 1, which
is representable in `int64`, and `MustInt` returns the default 7 for it. -/
theorem MustInt_number_counterexample :
    decimalInteger "1.0" = some 1 ∧ inInt64 1 ∧
    ∀ fp : FloatOps, QJson.MustInt fp ⟨.number "1.0"⟩ [7] = 7 ∧
      QJson.MustInt fp ⟨.number "1.0"⟩ [7] ≠ 1 := by
  refine ⟨by decide, by decide, fun fp => ?_⟩
  have h : QJson.MustInt fp ⟨.number "1.0"⟩ [7] = 7 := rfl
  exact ⟨h, by rw [h]; decide⟩

/-- C10, amended: `MustInt` on a Number returns the integer `n` when the text
is written as a base-10 integer literal (an optional sign, then decimal digits
only) denoting `n` within the `int64` range, and for every other text the first
supplied default, 0 when none is supplied; a text with a fraction or an
exponent is such another text even when its value is an integer. -/
theorem MustInt_number (fp : FloatOps) (t : String) (args : List Int) :
    (QJson.MustInt fp ⟨.number t⟩ args =
      match intLiteral t with
      | some n => if inInt64 n then n else qutils.Default 0 args 0
      | none => qutils.Default 0 args 0) ∧
    (∀ d, QJson.MustInt fp ⟨.number "1e2"⟩ [d] = d) ∧
    QJson.MustInt fp ⟨.number "1.0"⟩ [] = 0 ∧
    QJson.MustInt fp ⟨.number "-12"⟩ [5] = -12 := by
  refine ⟨?_, fun d => rfl, rfl, rfl⟩
  rcases ParseInt_base10 t 64 (.inr rfl) with ⟨n, hn, hr, hP⟩ | ⟨hno, e, hE⟩
  · simp [QJson.MustInt, convertInt64, Number.Int64, hP, hn, hr]
  · simp only [QJson.MustInt, convertInt64, Number.Int64, hE]
    cases hl : intLiteral t with
    | none => rfl
    | some n => simp [hno n hl]

/-! ## Shared facts about the mutators -/

theorem cell_lt_arrays {σ : Heap} {p : Nat} {xs : List Iface} (h : σ.arrays[p]? = some xs) :
    p < σ.arrays.length := by
  by_contra hc
  rw [List.getElem?_eq_none (not_lt.mp hc)] at h
  exact Option.noConfusion h

theorem cell_lt_objects {σ : Heap} {p : Nat} {m : List (String × Iface)}
    (h : σ.objects[p]? = some m) : p < σ.objects.length := by
  by_contra hc
  rw [List.getElem?_eq_none (not_lt.mp hc)] at h
  exact Option.noConfusion h

/-- What `ArrayAdd` leaves behind on an array cell. -/
theorem ArrayAdd_cell (σ : Heap) (p : Nat) (xs : List Iface) (x : Iface)
    (h : σ.arrays[p]? = some xs) (hx : x.noNilPtr = true) :
    ∃ σ2 v, QJson.ArrayAdd σ ⟨.jsonArray p⟩ x = .ok (σ2, ⟨.jsonArray p⟩) ∧
      σ2.arrays[p]? = some (xs ++ [v]) ∧ (x.isRaw = false → v = x) ∧ v.isRaw = false ∧
      Frame σ σ2 (· = p) (fun _ => False) := by
  obtain ⟨σ1, v, hw, f1⟩ := wrap_ok x σ hx
  have hp := cell_lt_arrays h
  have hp1 : p < σ1.arrays.length := lt_of_lt_of_le hp f1.1
  have hc1 : σ1.arrays[p]? = some xs := (f1.2.2.1 p hp (fun hf => hf)).trans h
  have hx1 : σ1.arrays[p] = xs := by
    rw [List.getElem?_eq_getElem hp1] at hc1
    exact Option.some.inj hc1
  obtain ⟨σ2, ha, f2, hc2⟩ := jsonArray_Add_ok hp1 v
  rw [hx1] at hc2
  refine ⟨σ2, v, by simp [QJson.ArrayAdd, QJson.asArray, hw, ha], hc2, ?_, ?_,
    Frame_trans (Frame_mono f1 (fun _ hf => hf.elim) (fun _ hf => hf)) f2⟩
  · intro hr
    rw [wrap_not_raw σ x hr] at hw
    injection hw with hw
    exact (congrArg Prod.snd hw).symm
  · have hW := wrap_wrapped σ x σ1 v hw
    cases x <;> simp only [Wrapped] at hW
    all_goals
      obtain ⟨_, _, rfl⟩ := hW
      rfl

/-- What `ObjectAdd` leaves behind on an object cell. -/
theorem ObjectAdd_cell (σ : Heap) (p : Nat) (m : List (String × Iface)) (k : String)
    (x : Iface) (h : σ.objects[p]? = some m) (hx : x.noNilPtr = true) :
    ∃ σ2 v, QJson.ObjectAdd σ ⟨.jsonObject p⟩ k x = .ok (σ2, ⟨.jsonObject p⟩) ∧
      σ2.objects[p]? = some (mapSet m k v) ∧ (x.isRaw = false → v = x) ∧ v.isRaw = false ∧
      Frame σ σ2 (fun _ => False) (· = p) := by
  obtain ⟨σ1, v, hw, f1⟩ := wrap_ok x σ hx
  have hp := cell_lt_objects h
  have hp1 : p < σ1.objects.length := lt_of_lt_of_le hp f1.2.1
  have hc1 : σ1.objects[p]? = some m := (f1.2.2.2 p hp (fun hf => hf)).trans h
  have hx1 : σ1.objects[p] = m := by
    rw [List.getElem?_eq_getElem hp1] at hc1
    exact Option.some.inj hc1
  obtain ⟨σ2, ha, f2, hc2⟩ := jsonObject_Add_ok hp1 k v
  rw [hx1] at hc2
  refine ⟨σ2, v, by simp [QJson.ObjectAdd, QJson.asObject, hw, ha], hc2, ?_, ?_,
    Frame_trans (Frame_mono f1 (fun _ hf => hf) (fun _ hf => hf.elim)) f2⟩
  · intro hr
    rw [wrap_not_raw σ x hr] at hw
    injection hw with hw
    exact (congrArg Prod.snd hw).symm
  · have hW := wrap_wrapped σ x σ1 v hw
    cases x <;> simp only [Wrapped] at hW
    all_goals
      obtain ⟨_, _, rfl⟩ := hW
      rfl

theorem mapGet_isSome_iff (m : List (String × Iface)) (k : String) :
    (mapGet m k).isSome = true ↔ k ∈ m.map Prod.fst := by
  induction m with
  | nil => simp [mapGet]
  | cons e rest ih =>
    obtain ⟨k0, v0⟩ := e
    by_cases hk : k0 = k
    · simp [mapGet, hk]
    · simp [mapGet, hk, ih, Ne.symm hk]


/-! ## Coercion of numbers and text -/

/-- C11: `MustBool` on a Number is `n != 0` when the text parses as an
`int64` integer `n` (a base-10 literal within the `int64` range), and the first
supplied default, false when none is supplied, when it does not. -/
theorem MustBool_number (t : String) (args : List Bool) :
    (QJson.MustBool ⟨.number t⟩ args =
      match intLiteral t with
      | some n => if inInt64 n then (n != 0) else qutils.Default false args 0
      | none => qutils.Default false args 0) ∧
    QJson.MustBool ⟨.number "0"⟩ [true] = false ∧
    QJson.MustBool ⟨.number "-12"⟩ [] = true ∧
    QJson.MustBool ⟨.number "1.5"⟩ [true] = true ∧
    QJson.MustBool ⟨.number "1.5"⟩ [] = false := by
  refine ⟨?_, rfl, rfl, rfl, rfl⟩
  rcases ParseInt_base10 t 64 (.inr rfl) with ⟨n, hn, hr, hP⟩ | ⟨hno, e, hE⟩
  · simp [QJson.MustBool, convertBool, Number.Int64, hP, hn, hr]
  · simp only [QJson.MustBool, convertBool, Number.Int64, hE]
    cases hl : intLiteral t with
    | none => rfl
    | some n => simp [hno n hl]

/-- C12: `MustString` is the identity on text-bearing leaves: on a String it
returns the string, the empty one included, and on a Number its decimal text,
whatever defaults are supplied. -/
theorem MustString_text (fp : FloatOps) (s t : String) (args : List String) :
    QJson.MustString fp ⟨.string s⟩ args = s ∧
    QJson.MustString fp ⟨.string ""⟩ args = "" ∧
    QJson.MustString fp ⟨.number t⟩ args = t :=
  ⟨rfl, rfl, rfl⟩

/-- C19: `MustInt` on a stored `uint64` value `u` returns `u` when
`u < 2^63` and `u - 2^64`, a negative number, when `u ≥ 2^63`, whatever
defaults are supplied; so it returns `u` itself exactly when `u < 2^63`. -/
theorem MustInt_uint (fp : FloatOps) (u : Nat) (args : List Int) (hu : u < 2 ^ 64) :
    (u < 2 ^ 63 → QJson.MustInt fp ⟨.uint u⟩ args = (u : Int)) ∧
    (2 ^ 63 ≤ u → QJson.MustInt fp ⟨.uint u⟩ args = (u : Int) - 2 ^ 64 ∧
      QJson.MustInt fp ⟨.uint u⟩ args < 0) ∧
    (QJson.MustInt fp ⟨.uint u⟩ args = (u : Int) ↔ u < 2 ^ 63) := by
  have hm : u % 2 ^ 64 = u := Nat.mod_eq_of_lt hu
  have hdef : QJson.MustInt fp ⟨.uint u⟩ args = int64OfUint64 u := rfl
  rw [hdef]
  unfold int64OfUint64
  rw [hm]
  refine ⟨fun h => by rw [if_pos h], fun h => ?_, ?_⟩
  · rw [if_neg (by omega)]
    exact ⟨rfl, by omega⟩
  · constructor
    · intro h
      by_contra hc
      rw [if_neg hc] at h
      omega
    · intro h
      rw [if_pos h]

/-- C19 at concrete inputs: the largest `uint64` coerces to `-1`, and
`2^63 - 1` to itself. -/
theorem MustInt_uint_witness :
    (18446744073709551615 < 2 ^ 64 ∧ 2 ^ 63 ≤ 18446744073709551615) ∧
    ∀ fp : FloatOps, QJson.MustInt fp ⟨.uint 18446744073709551615⟩ [7] = -1 ∧
      QJson.MustInt fp ⟨.uint 9223372036854775807⟩ [7] = 9223372036854775807 :=
  ⟨by decide, fun fp =>
    ⟨((MustInt_uint fp 18446744073709551615 [7] (by decide)).2.1 (by decide)).1,
     (MustInt_uint fp 9223372036854775807 [7] (by decide)).1 (by decide)⟩⟩


/-! ## Navigation: existence, nested creation, framing -/

/-- C17: on a value whose object pointer, if it is one, has a cell, `Exists`
returns normally, and it returns true exactly when the value is Object-kind
and `k` is a key of its map; so it is true for a key whose stored value is
nil, and false for every key of a fresh `NewObjectJSON()`. -/
theorem Exists_iff_key (σ : Heap) (v : QJson) (k : String)
    (hv : ∀ p, v.data = .jsonObject p → p < σ.objects.length) :
    (∃ b, QJson.Exists σ v k = .ok b) ∧
    (QJson.Exists σ v k = .ok true ↔
      ∃ p m, v.data = .jsonObject p ∧ σ.objects[p]? = some m ∧ k ∈ m.map Prod.fst) ∧
    (∀ p m, v.data = .jsonObject p → σ.objects[p]? = some m → mapGet m k = some .nil →
      QJson.Exists σ v k = .ok true) ∧
    QJson.Exists (NewObjectJSON σ).1 (NewObjectJSON σ).2 k = .ok false := by
  have hfresh : QJson.Exists (NewObjectJSON σ).1 (NewObjectJSON σ).2 k = .ok false := by
    simp [QJson.Exists, QJson.asObject, NewObjectJSON, Heap.newObject, jsonObject.Get, mapGet]
  obtain ⟨d⟩ := v
  by_cases hobj : ∃ p, d = .jsonObject p
  · obtain ⟨p, rfl⟩ := hobj
    have hp := hv p rfl
    have hc : σ.objects[p]? = some σ.objects[p] := List.getElem?_eq_getElem hp
    have hE : QJson.Exists σ ⟨.jsonObject p⟩ k = .ok (mapGet σ.objects[p] k).isSome := by
      simp only [QJson.Exists, QJson.asObject, jsonObject.Get, hc]
      cases mapGet σ.objects[p] k <;> rfl
    refine ⟨⟨_, hE⟩, ?_, ?_, hfresh⟩
    · rw [hE]
      constructor
      · intro h
        injection h with h
        exact ⟨p, _, rfl, hc, (mapGet_isSome_iff _ k).mp h⟩
      · rintro ⟨p', m, hd, hm, hk⟩
        injection hd with hd
        subst hd
        rw [hc] at hm
        injection hm with hm
        subst hm
        rw [(mapGet_isSome_iff _ k).mpr hk]
    · intro p' m hd hm hnil
      injection hd with hd
      subst hd
      rw [hc] at hm
      injection hm with hm
      subst hm
      rw [hE, hnil]
      rfl
  · have hE : QJson.Exists σ ⟨d⟩ k = .ok false := by
      cases d <;> first | rfl | exact absurd ⟨_, rfl⟩ hobj
    refine ⟨⟨_, hE⟩, ?_, ?_, hfresh⟩
    · rw [hE]
      constructor
      · intro h
        injection h with h
        exact Bool.noConfusion h
      · rintro ⟨p, m, hd, _, _⟩
        exact absurd ⟨p, hd⟩ hobj
    · intro p m hd
      exact absurd ⟨p, hd⟩ hobj

/-- C17 at a concrete input: in `{a: null}` the key `"a"` exists and `"b"`
does not. -/
theorem Exists_iff_key_witness :
    QJson.Exists ⟨[], [[("a", .nil)]]⟩ ⟨.jsonObject 0⟩ "a" = .ok true ∧
    ¬ QJson.Exists ⟨[], [[("a", .nil)]]⟩ ⟨.jsonObject 0⟩ "b" = .ok true :=
  ⟨(Exists_iff_key ⟨[], [[("a", .nil)]]⟩ ⟨.jsonObject 0⟩ "a"
      (fun p hp => by injection hp with hp; subst hp; decide)).2.2.1 0 [("a", .nil)]
      rfl rfl rfl,
   fun h => by
     obtain ⟨p, m, hd, hm, hk⟩ :=
       (Exists_iff_key ⟨[], [[("a", .nil)]]⟩ ⟨.jsonObject 0⟩ "b"
        (fun p hp => by injection hp with hp; subst hp; decide)).2.1.mp h
     injection hd with hd
     subst hd
     injection hm with hm
     subst hm
     simp at hk⟩


theorem newArray_cell (σ : Heap) : (σ.newArray).1.arrays[σ.arrays.length]? = some [] := by
  simp [Heap.newArray]

theorem newObject_cell (σ : Heap) : (σ.newObject).1.objects[σ.objects.length]? = some [] := by
  simp [Heap.newObject]

theorem jsonArray_Last_last (σ : Heap) (p : Nat) (xs : List Iface) (v : Iface)
    (h : σ.arrays[p]? = some (xs ++ [v])) : jsonArray.Last σ p = .ok (v, true) := by
  simp [jsonArray.Last, h]

/-- What `ArrayNewArray` leaves behind on an array cell. -/
theorem ArrayNewArray_cell (σ : Heap) (p : Nat) (xs : List Iface)
    (h : σ.arrays[p]? = some xs) :
    ∃ σ', QJson.ArrayNewArray σ ⟨.jsonArray p⟩ = .ok (σ', ⟨.jsonArray σ.arrays.length⟩) ∧
      σ'.arrays[p]? = some (xs ++ [.jsonArray σ.arrays.length]) ∧
      σ'.arrays[σ.arrays.length]? = some [] ∧
      Frame σ σ' (· = p) (fun _ => False) := by
  have hp := cell_lt_arrays h
  have f0 := Frame_newArray σ (· = p) (fun _ => False)
  have hp0 : p < (σ.newArray).1.arrays.length := lt_of_lt_of_le hp f0.1
  have hc0 : (σ.newArray).1.arrays[p]? = some xs := by
    simp [Heap.newArray, List.getElem?_append_left hp, h]
  have hx0 : (σ.newArray).1.arrays[p] = xs := by
    rw [List.getElem?_eq_getElem hp0] at hc0
    exact Option.some.inj hc0
  obtain ⟨σ1, ha, f1, hc1⟩ := jsonArray_Add_ok hp0 (.jsonArray (σ.newArray).2)
  rw [hx0] at hc1
  have hq : σ1.arrays[σ.arrays.length]? = some [] := by
    rw [f1.2.2.1 σ.arrays.length (by simp [Heap.newArray]) (by omega)]
    exact newArray_cell σ
  refine ⟨σ1, ?_, hc1, hq, Frame_trans f0 f1⟩
  simp only [QJson.ArrayNewArray, QJson.asArray, ha, jsonArray_Last_last σ1 p xs _ hc1]
  rfl

/-- What `ArrayNewObject` leaves behind on an array cell. -/
theorem ArrayNewObject_cell (σ : Heap) (p : Nat) (xs : List Iface)
    (h : σ.arrays[p]? = some xs) :
    ∃ σ', QJson.ArrayNewObject σ ⟨.jsonArray p⟩ = .ok (σ', ⟨.jsonObject σ.objects.length⟩) ∧
      σ'.arrays[p]? = some (xs ++ [.jsonObject σ.objects.length]) ∧
      σ'.objects[σ.objects.length]? = some [] ∧
      Frame σ σ' (· = p) (fun _ => False) := by
  have hp := cell_lt_arrays h
  have f0 := Frame_newObject σ (· = p) (fun _ => False)
  have hp0 : p < (σ.newObject).1.arrays.length := lt_of_lt_of_le hp f0.1
  have hc0 : (σ.newObject).1.arrays[p]? = some xs := h
  have hx0 : (σ.newObject).1.arrays[p] = xs := by
    rw [List.getElem?_eq_getElem hp0] at hc0
    exact Option.some.inj hc0
  obtain ⟨σ1, ha, f1, hc1⟩ := jsonArray_Add_ok hp0 (.jsonObject (σ.newObject).2)
  rw [hx0] at hc1
  have hq : σ1.objects[σ.objects.length]? = some [] := by
    rw [f1.2.2.2 σ.objects.length (by simp [Heap.newObject]) (fun hf => hf)]
    exact newObject_cell σ
  refine ⟨σ1, ?_, hc1, hq, Frame_trans f0 f1⟩
  simp only [QJson.ArrayNewObject, QJson.asArray, ha, jsonArray_Last_last σ1 p xs _ hc1]
  rfl

theorem ObjectGet_of_cell (σ : Heap) (p : Nat) (m : List (String × Iface)) (k : String)
    (v : Iface) (h : σ.objects[p]? = some m) (hk : mapGet m k = some v) :
    QJson.ObjectGet σ ⟨.jsonObject p⟩ k = .ok ⟨v⟩ := by
  simp [QJson.ObjectGet, QJson.asObject, jsonObject.Get, h, hk]

/-- What `ObjectNewArray` leaves behind on an object cell. -/
theorem ObjectNewArray_cell (σ : Heap) (p : Nat) (m : List (String × Iface)) (k : String)
    (h : σ.objects[p]? = some m) :
    ∃ σ', QJson.ObjectNewArray σ ⟨.jsonObject p⟩ k
        = .ok (σ', ⟨.jsonArray σ.arrays.length⟩) ∧
      σ'.objects[p]? = some (mapSet m k (.jsonArray σ.arrays.length)) ∧
      σ'.arrays[σ.arrays.length]? = some [] ∧
      Frame σ σ' (fun _ => False) (· = p) := by
  have f0 := Frame_newArray σ (fun _ => False) (· = p)
  have hc0 : (σ.newArray).1.objects[p]? = some m := h
  obtain ⟨σ2, v, hadd, hc2, hv, _, f2⟩ :=
    ObjectAdd_cell (σ.newArray).1 p m k (.jsonArray (σ.newArray).2) hc0 rfl
  have hv' : v = .jsonArray σ.arrays.length := hv rfl
  subst hv'
  have hq : σ2.arrays[σ.arrays.length]? = some [] := by
    rw [f2.2.2.1 σ.arrays.length (by simp [Heap.newArray]) (fun hf => hf)]
    exact newArray_cell σ
  refine ⟨σ2, ?_, hc2, hq, Frame_trans f0 f2⟩
  simp only [QJson.ObjectNewArray, hadd,
    ObjectGet_of_cell σ2 p _ k _ hc2 (mapGet_mapSet_same m k _)]

/-- What `ObjectNewObject` leaves behind on an object cell. -/
theorem ObjectNewObject_cell (σ : Heap) (p : Nat) (m : List (String × Iface)) (k : String)
    (h : σ.objects[p]? = some m) :
    ∃ σ', QJson.ObjectNewObject σ ⟨.jsonObject p⟩ k
        = .ok (σ', ⟨.jsonObject σ.objects.length⟩) ∧
      σ'.objects[p]? = some (mapSet m k (.jsonObject σ.objects.length)) ∧
      σ'.objects[σ.objects.length]? = some [] ∧
      Frame σ σ' (fun _ => False) (· = p) := by
  have hp := cell_lt_objects h
  have f0 := Frame_newObject σ (fun _ => False) (· = p)
  have hc0 : (σ.newObject).1.objects[p]? = some m := by
    simp [Heap.newObject, List.getElem?_append_left hp, h]
  obtain ⟨σ2, v, hadd, hc2, hv, _, f2⟩ :=
    ObjectAdd_cell (σ.newObject).1 p m k (.jsonObject (σ.newObject).2) hc0 rfl
  have hv' : v = .jsonObject σ.objects.length := hv rfl
  subst hv'
  have hq : σ2.objects[σ.objects.length]? = some [] := by
    rw [f2.2.2.2 σ.objects.length (by simp [Heap.newObject]) (by omega)]
    exact newObject_cell σ
  refine ⟨σ2, ?_, hc2, hq, Frame_trans f0 f2⟩
  simp only [QJson.ObjectNewObject, hadd,
    ObjectGet_of_cell σ2 p _ k _ hc2 (mapGet_mapSet_same m k _)]


theorem ArrayGet_of_cell (σ : Heap) (p : Nat) (xs : List Iface) (i : Nat) (v : Iface)
    (h : σ.arrays[p]? = some xs) (hi : xs[i]? = some v) :
    QJson.ArrayGet σ ⟨.jsonArray p⟩ (i : Int) = .ok ⟨v⟩ := by
  have hlt : i < xs.length := by
    by_contra hc
    rw [List.getElem?_eq_none (not_lt.mp hc)] at hi
    exact Option.noConfusion hi
  have h1 : (i : Int) < (xs.length : Int) := by exact_mod_cast hlt
  have h2 : ¬ ((i : Int) < 0) := by omega
  simp [QJson.ArrayGet, QJson.asArray, jsonArray.Get, h, h1, h2, hi]

/-- C16: on an Array-kind value whose cell holds `xs` (length `n`),
`ArrayNewArray` (resp. `ArrayNewObject`) returns a handle on a new pointer, the
cell then holds `xs` followed by that pointer, the pointer's own cell is empty,
and `ArrayGet(n)` returns the same handle. On an Object-kind value whose cell
holds `m`, `ObjectNewArray` (resp. `ObjectNewObject`) returns a handle on a new
pointer whose cell is empty, the map then holds `m` with `k` set to that
pointer, whether or not `k` had an entry, and `ObjectGet(k)` returns the same
handle. -/
theorem nested_creation (σ : Heap) (p : Nat) :
    (∀ xs, σ.arrays[p]? = some xs →
      (∃ σ', QJson.ArrayNewArray σ ⟨.jsonArray p⟩ = .ok (σ', ⟨.jsonArray σ.arrays.length⟩) ∧
        σ'.arrays[p]? = some (xs ++ [.jsonArray σ.arrays.length]) ∧
        σ'.arrays[σ.arrays.length]? = some [] ∧
        QJson.ArrayGet σ' ⟨.jsonArray p⟩ xs.length = .ok ⟨.jsonArray σ.arrays.length⟩) ∧
      (∃ σ', QJson.ArrayNewObject σ ⟨.jsonArray p⟩
          = .ok (σ', ⟨.jsonObject σ.objects.length⟩) ∧
        σ'.arrays[p]? = some (xs ++ [.jsonObject σ.objects.length]) ∧
        σ'.objects[σ.objects.length]? = some [] ∧
        QJson.ArrayGet σ' ⟨.jsonArray p⟩ xs.length
          = .ok ⟨.jsonObject σ.objects.length⟩)) ∧
    (∀ m k, σ.objects[p]? = some m →
      (∃ σ', QJson.ObjectNewArray σ ⟨.jsonObject p⟩ k
          = .ok (σ', ⟨.jsonArray σ.arrays.length⟩) ∧
        σ'.objects[p]? = some (mapSet m k (.jsonArray σ.arrays.length)) ∧
        σ'.arrays[σ.arrays.length]? = some [] ∧
        QJson.ObjectGet σ' ⟨.jsonObject p⟩ k = .ok ⟨.jsonArray σ.arrays.length⟩) ∧
      (∃ σ', QJson.ObjectNewObject σ ⟨.jsonObject p⟩ k
          = .ok (σ', ⟨.jsonObject σ.objects.length⟩) ∧
        σ'.objects[p]? = some (mapSet m k (.jsonObject σ.objects.length)) ∧
        σ'.objects[σ.objects.length]? = some [] ∧
        QJson.ObjectGet σ' ⟨.jsonObject p⟩ k = .ok ⟨.jsonObject σ.objects.length⟩)) := by
  refine ⟨fun xs h => ⟨?_, ?_⟩, fun m k h => ⟨?_, ?_⟩⟩
  · obtain ⟨σ', h1, h2, h3, _⟩ := ArrayNewArray_cell σ p xs h
    exact ⟨σ', h1, h2, h3, ArrayGet_of_cell σ' p _ xs.length _ h2 (by simp)⟩
  · obtain ⟨σ', h1, h2, h3, _⟩ := ArrayNewObject_cell σ p xs h
    exact ⟨σ', h1, h2, h3, ArrayGet_of_cell σ' p _ xs.length _ h2 (by simp)⟩
  · obtain ⟨σ', h1, h2, h3, _⟩ := ObjectNewArray_cell σ p m k h
    exact ⟨σ', h1, h2, h3, ObjectGet_of_cell σ' p _ k _ h2 (mapGet_mapSet_same m k _)⟩
  · obtain ⟨σ', h1, h2, h3, _⟩ := ObjectNewObject_cell σ p m k h
    exact ⟨σ', h1, h2, h3, ObjectGet_of_cell σ' p _ k _ h2 (mapGet_mapSet_same m k _)⟩

/-- C16 at a concrete input: a nested array appended to `[1]`, and a nested
object written over the entry `"a"` of `{a: 1}`. -/
theorem nested_creation_witness :
    (∃ σ', QJson.ArrayNewArray ⟨[[.int 1]], [[("a", .int 1)]]⟩ ⟨.jsonArray 0⟩
        = .ok (σ', ⟨.jsonArray 1⟩) ∧
      σ'.arrays[0]? = some ([.int 1] ++ [.jsonArray 1]) ∧
      σ'.arrays[1]? = some [] ∧
      QJson.ArrayGet σ' ⟨.jsonArray 0⟩ 1 = .ok ⟨.jsonArray 1⟩) ∧
    (∃ σ', QJson.ObjectNewObject ⟨[[.int 1]], [[("a", .int 1)]]⟩ ⟨.jsonObject 0⟩ "a"
        = .ok (σ', ⟨.jsonObject 1⟩) ∧
      σ'.objects[0]? = some (mapSet [("a", .int 1)] "a" (.jsonObject 1)) ∧
      σ'.objects[1]? = some [] ∧
      QJson.ObjectGet σ' ⟨.jsonObject 0⟩ "a" = .ok ⟨.jsonObject 1⟩) :=
  ⟨((nested_creation ⟨[[.int 1]], [[("a", .int 1)]]⟩ 0).1 [.int 1] rfl).1,
   ((nested_creation ⟨[[.int 1]], [[("a", .int 1)]]⟩ 0).2 [("a", .int 1)] "a" rfl).2⟩

/-- C18 as stated fails: `ArrayAdd` on the Array-kind value `[1, 2]` and
`ObjectAdd` on the Object-kind value `{a: 1}` panic when the item is a nil
pointer to a slice or map, so no state follows in which the length is `n + 1`
or the other keys can be read. -/
theorem mutation_frame_counterexample :
    ((⟨[[.int 1, .int 2]], [[("a", .int 1)]]⟩ : Heap).arrays[0]? = some [.int 1, .int 2] ∧
      (⟨[[.int 1, .int 2]], [[("a", .int 1)]]⟩ : Heap).objects[0]? = some [("a", .int 1)]) ∧
    QJson.ArrayAdd ⟨[[.int 1, .int 2]], [[("a", .int 1)]]⟩ ⟨.jsonArray 0⟩ .nilMapPtr
      = .error .nilDereference ∧
    QJson.ObjectAdd ⟨[[.int 1, .int 2]], [[("a", .int 1)]]⟩ ⟨.jsonObject 0⟩ "c" .nilSlicePtr
      = .error .nilDereference :=
  ⟨⟨rfl, rfl⟩, rfl, rfl⟩

/-- C18, amended: mutations touch only the addressed position, for every item
`x` that holds no nil pointer to a slice or map at any depth. On an Array-kind
value whose cell holds `xs` (length `n`), `ArrayAdd` returns normally, the cell
then holds `xs` followed by one element (length `n + 1`), every other array
cell and every object cell that existed is unchanged and none is removed, and
`ArrayGet(i)` returns what it returned before for every `0 ≤ i < n`. On an
Object-kind value whose cell holds `m`, `ObjectAdd` with key `k` returns
normally, the cell then holds `m` with `k` set, every other object cell and
every array cell that existed is unchanged and none is removed, and for every
key `k' ≠ k` the map read, `ObjectGet(k')` and `Exists(k')` return what they
returned before. -/
theorem mutation_frame (σ : Heap) (p : Nat) (x : Iface) (hx : x.noNilPtr = true) :
    (∀ xs, σ.arrays[p]? = some xs →
      ∃ σ2 v, QJson.ArrayAdd σ ⟨.jsonArray p⟩ x = .ok (σ2, ⟨.jsonArray p⟩) ∧
        σ2.arrays[p]? = some (xs ++ [v]) ∧ (xs ++ [v]).length = xs.length + 1 ∧
        Frame σ σ2 (· = p) (fun _ => False) ∧
        ∀ i : Int, 0 ≤ i → i < xs.length →
          QJson.ArrayGet σ2 ⟨.jsonArray p⟩ i = QJson.ArrayGet σ ⟨.jsonArray p⟩ i) ∧
    (∀ m k, σ.objects[p]? = some m →
      ∃ σ2 v, QJson.ObjectAdd σ ⟨.jsonObject p⟩ k x = .ok (σ2, ⟨.jsonObject p⟩) ∧
        σ2.objects[p]? = some (mapSet m k v) ∧
        Frame σ σ2 (fun _ => False) (· = p) ∧
        ∀ k', k' ≠ k →
          mapGet (mapSet m k v) k' = mapGet m k' ∧
          QJson.ObjectGet σ2 ⟨.jsonObject p⟩ k' = QJson.ObjectGet σ ⟨.jsonObject p⟩ k' ∧
          QJson.Exists σ2 ⟨.jsonObject p⟩ k' = QJson.Exists σ ⟨.jsonObject p⟩ k') := by
  refine ⟨fun xs h => ?_, fun m k h => ?_⟩
  · obtain ⟨σ2, v, hadd, hc, _, _, f⟩ := ArrayAdd_cell σ p xs x h hx
    refine ⟨σ2, v, hadd, hc, by simp, f, ?_⟩
    intro i h0 hlt
    have hn : i.toNat < xs.length := by omega
    have hi : i = (i.toNat : Int) := by omega
    rw [hi, ArrayGet_of_cell σ2 p _ i.toNat xs[i.toNat] hc
        (by rw [List.getElem?_append_left hn]; exact List.getElem?_eq_getElem hn),
      ArrayGet_of_cell σ p _ i.toNat xs[i.toNat] h (List.getElem?_eq_getElem hn)]
  · obtain ⟨σ2, v, hadd, hc, _, _, f⟩ := ObjectAdd_cell σ p m k x h hx
    refine ⟨σ2, v, hadd, hc, f, fun k' hne => ⟨mapGet_mapSet_other m k k' v hne, ?_⟩⟩
    simp [QJson.ObjectGet, QJson.Exists, QJson.asObject, jsonObject.Get, hc, h,
      mapGet_mapSet_other m k k' v hne]

/-- C18 at a concrete input: appending to `[1, 2]` and writing `"c"` into
`{a: 1}`, with the raw slice `[true]` as the item. -/
theorem mutation_frame_witness :
    ((Iface.slice [.bool true]).noNilPtr = true ∧
      (⟨[[.int 1, .int 2]], [[("a", .int 1)]]⟩ : Heap).arrays[0]? = some [.int 1, .int 2] ∧
      (⟨[[.int 1, .int 2]], [[("a", .int 1)]]⟩ : Heap).objects[0]? = some [("a", .int 1)]) ∧
    (∃ σ2 v, QJson.ArrayAdd ⟨[[.int 1, .int 2]], [[("a", .int 1)]]⟩ ⟨.jsonArray 0⟩
        (.slice [.bool true]) = .ok (σ2, ⟨.jsonArray 0⟩) ∧
      σ2.arrays[0]? = some ([.int 1, .int 2] ++ [v]) ∧
      ([Iface.int 1, Iface.int 2] ++ [v]).length = [Iface.int 1, Iface.int 2].length + 1 ∧
      Frame ⟨[[.int 1, .int 2]], [[("a", .int 1)]]⟩ σ2 (· = 0) (fun _ => False) ∧
      ∀ i : Int, 0 ≤ i → i < [Iface.int 1, Iface.int 2].length →
        QJson.ArrayGet σ2 ⟨.jsonArray 0⟩ i
          = QJson.ArrayGet ⟨[[.int 1, .int 2]], [[("a", .int 1)]]⟩ ⟨.jsonArray 0⟩ i) ∧
    (∃ σ2 v, QJson.ObjectAdd ⟨[[.int 1, .int 2]], [[("a", .int 1)]]⟩ ⟨.jsonObject 0⟩ "c"
        (.slice [.bool true]) = .ok (σ2, ⟨.jsonObject 0⟩) ∧
      σ2.objects[0]? = some (mapSet [("a", .int 1)] "c" v) ∧
      Frame ⟨[[.int 1, .int 2]], [[("a", .int 1)]]⟩ σ2 (fun _ => False) (· = 0) ∧
      ∀ k', k' ≠ "c" →
        mapGet (mapSet [("a", .int 1)] "c" v) k' = mapGet [("a", .int 1)] k' ∧
        QJson.ObjectGet σ2 ⟨.jsonObject 0⟩ k'
          = QJson.ObjectGet ⟨[[.int 1, .int 2]], [[("a", .int 1)]]⟩ ⟨.jsonObject 0⟩ k' ∧
        QJson.Exists σ2 ⟨.jsonObject 0⟩ k'
          = QJson.Exists ⟨[[.int 1, .int 2]], [[("a", .int 1)]]⟩ ⟨.jsonObject 0⟩ k') :=
  ⟨⟨rfl, rfl, rfl⟩,
   (mutation_frame ⟨[[.int 1, .int 2]], [[("a", .int 1)]]⟩ 0 (.slice [.bool true]) rfl).1
      [.int 1, .int 2] rfl,
   (mutation_frame ⟨[[.int 1, .int 2]], [[("a", .int 1)]]⟩ 0 (.slice [.bool true]) rfl).2
      [("a", .int 1)] "c" rfl⟩

/-! ## Integer text round trip -/

theorem digitChar_toNat (k : Nat) (h : k < 10) : (Nat.digitChar k).toNat = 48 + k := by
  interval_cases k <;> rfl

theorem digitsValue_append_one (L : List Char) (c : Char) :
    digitsValue (L ++ [c]) = 10 * digitsValue L + (c.toNat - 48) := by
  simp [digitsValue, List.foldl_append]

/-- With enough fuel `Nat.toDigitsCore 10` puts in front of `ds` a non-empty
run of decimal digits whose value is `n`. -/
theorem toDigitsCore_decimal (fuel : Nat) :
    ∀ (n : Nat) (ds : List Char), n < fuel →
      ∃ L, Nat.toDigitsCore 10 fuel n ds = L ++ ds ∧ L ≠ [] ∧
        L.all isDecimalDigit = true ∧ digitsValue L = n := by
  induction fuel with
  | zero => intro n ds h; omega
  | succ fuel ih =>
    intro n ds h
    have hd : (Nat.digitChar (n % 10)).toNat = 48 + n % 10 :=
      digitChar_toNat _ (Nat.mod_lt _ (by norm_num))
    have hdig : isDecimalDigit (Nat.digitChar (n % 10)) = true := by
      simp only [isDecimalDigit, decide_eq_true_eq, hd]
      omega
    by_cases h0 : n / 10 = 0
    · refine ⟨[Nat.digitChar (n % 10)], by simp [Nat.toDigitsCore, h0], by simp, by simp [hdig],
        ?_⟩
      simp only [digitsValue, List.foldl_cons, List.foldl_nil, hd]
      omega
    · obtain ⟨L, hL, hne, hall, hval⟩ := ih (n / 10) (Nat.digitChar (n % 10) :: ds) (by omega)
      refine ⟨L ++ [Nat.digitChar (n % 10)], by simp [Nat.toDigitsCore, h0, hL], by simp,
        by simp [hall, hdig], ?_⟩
      rw [digitsValue_append_one, hval, hd]
      omega

theorem toDigits_decimal (n : Nat) :
    Nat.toDigits 10 n ≠ [] ∧ (Nat.toDigits 10 n).all isDecimalDigit = true ∧
      digitsValue (Nat.toDigits 10 n) = n := by
  obtain ⟨L, hL, hne, hall, hval⟩ := toDigitsCore_decimal (n + 1) n [] (by omega)
  rw [List.append_nil] at hL
  rw [Nat.toDigits, hL]
  exact ⟨hne, hall, hval⟩

theorem natLiteral_toDigits (n : Nat) : natLiteral (Nat.toDigits 10 n) = some n := by
  obtain ⟨hne, hall, hval⟩ := toDigits_decimal n
  simp [natLiteral, hne, hall, hval]

/-- The text `strconv.FormatInt` writes is a base-10 literal denoting the
integer it was given. -/
theorem intLiteral_FormatInt (n : Int) : intLiteral (strconv.FormatInt n) = some n := by
  by_cases hneg : n < 0
  · have h1 : strconv.FormatInt n = String.mk ('-' :: Nat.toDigits 10 n.natAbs) := by
      simp [strconv.FormatInt, hneg]
    rw [h1]
    simp only [intLiteral, natLiteral_toDigits]
    simp only [Char.reduceEq, if_false, if_true, Option.map_some', Option.some.injEq]
    omega
  · have h1 : strconv.FormatInt n = String.mk (Nat.toDigits 10 n.natAbs) := by
      simp [strconv.FormatInt, hneg]
    rw [h1]
    obtain ⟨hne, hall, hval⟩ := toDigits_decimal n.natAbs
    cases hL : Nat.toDigits 10 n.natAbs with
    | nil => exact absurd hL hne
    | cons c cs =>
      have hc : isDecimalDigit c = true := by
        rw [hL] at hall
        simp only [List.all_cons, Bool.and_eq_true] at hall
        exact hall.1
      simp only [isDecimalDigit, decide_eq_true_eq] at hc
      have hp : c ≠ '+' := by
        intro h
        rw [h] at hc
        exact absurd hc (by decide)
      have hm : c ≠ '-' := by
        intro h
        rw [h] at hc
        exact absurd hc (by decide)
      have hnl : natLiteral (c :: cs) = some n.natAbs := by
        rw [← hL]
        exact natLiteral_toDigits _
      simp only [intLiteral, if_neg hp, if_neg hm, hnl, Option.map_some', Option.some.injEq]
      omega

/-- C20: for every stored machine integer `n` in the `int64` range,
`MustString` yields the text `strconv.FormatInt(n, 10)`, which is a base-10
literal (a `-` for a negative `n`, then decimal digits) denoting `n`, and
`MustInt` on that text, held as a String or as a Number, returns `n` whatever
defaults are supplied. -/
theorem int_text_round_trip (fp : FloatOps) (n : Int) (dS : List String) (dI : List Int)
    (hn : inInt64 n) :
    QJson.MustString fp ⟨.int n⟩ dS = strconv.FormatInt n ∧
    intLiteral (QJson.MustString fp ⟨.int n⟩ dS) = some n ∧
    QJson.MustInt fp ⟨.string (QJson.MustString fp ⟨.int n⟩ dS)⟩ dI = n ∧
    QJson.MustInt fp ⟨.number (QJson.MustString fp ⟨.int n⟩ dS)⟩ dI = n := by
  have hS : QJson.MustString fp ⟨.int n⟩ dS = strconv.FormatInt n := rfl
  have hL := intLiteral_FormatInt n
  refine ⟨hS, by rw [hS]; exact hL, ?_, ?_⟩
  · rw [hS]
    rcases ParseInt_base10 (strconv.FormatInt n) 0 (.inl rfl) with
      ⟨k, hk, _, hP⟩ | ⟨hno, _⟩
    · rw [hL] at hk
      injection hk with hk
      subst hk
      simp [QJson.MustInt, convertInt64, hP]
    · exact absurd hn (hno n hL)
  · rw [hS]
    rcases ParseInt_base10 (strconv.FormatInt n) 64 (.inr rfl) with
      ⟨k, hk, _, hP⟩ | ⟨hno, _⟩
    · rw [hL] at hk
      injection hk with hk
      subst hk
      simp [QJson.MustInt, convertInt64, Number.Int64, hP]
    · exact absurd hn (hno n hL)

/-- C20 at concrete inputs: the smallest `int64` and 120. -/
theorem int_text_round_trip_witness :
    (inInt64 (-9223372036854775808) ∧ inInt64 120) ∧
    ∀ fp : FloatOps,
      QJson.MustString fp ⟨.int (-9223372036854775808)⟩ [] = "-9223372036854775808" ∧
      QJson.MustInt fp ⟨.string (QJson.MustString fp ⟨.int (-9223372036854775808)⟩ [])⟩ [7]
        = -9223372036854775808 ∧
      QJson.MustString fp ⟨.int 120⟩ ["d"] = "120" ∧
      QJson.MustInt fp ⟨.number (QJson.MustString fp ⟨.int 120⟩ ["d"])⟩ [7] = 120 :=
  ⟨by decide, fun fp =>
    ⟨by
      rw [(int_text_round_trip fp (-9223372036854775808) [] [7] (by decide)).1]
      decide,
     (int_text_round_trip fp (-9223372036854775808) [] [7] (by decide)).2.2.1,
     by
      rw [(int_text_round_trip fp 120 ["d"] [7] (by decide)).1]
      decide,
     (int_text_round_trip fp 120 ["d"] [7] (by decide)).2.2.2⟩⟩

/-! ## Normalization builds the normal form -/

mutual
/-- A normal form survives any heap change that leaves its own cells alone,
and may be read with weaker address bounds. -/
theorem Normalized_transfer (x : Iface) (a o a' o' : Nat) (σ σ' : Heap) (A O : Nat → Prop)
    (v : Iface) (ha : a' ≤ a) (ho : o' ≤ o) (f : Frame σ σ' A O)
    (hA : ∀ q, A q → q < a) (hO : ∀ q, O q → q < o) (h : Normalized a o σ x v) :
    Normalized a' o' σ' x v := by
  cases x with
  | nilSlicePtr => simp only [Normalized] at h
  | nilMapPtr => simp only [Normalized] at h
  | slice val =>
    simp only [Normalized] at h ⊢
    obtain ⟨q, ys, hv, hq, hc, hl⟩ := h
    refine ⟨q, ys, hv, le_trans ha hq, ?_,
      NormalizedList_transfer val a o a' o' σ σ' A O ys ha ho f hA hO hl⟩
    rw [f.2.2.1 q (cell_lt_arrays hc) (fun hf => absurd (hA q hf) (by omega))]
    exact hc
  | slicePtr val =>
    simp only [Normalized] at h ⊢
    obtain ⟨q, ys, hv, hq, hc, hl⟩ := h
    refine ⟨q, ys, hv, le_trans ha hq, ?_,
      NormalizedList_transfer val a o a' o' σ σ' A O ys ha ho f hA hO hl⟩
    rw [f.2.2.1 q (cell_lt_arrays hc) (fun hf => absurd (hA q hf) (by omega))]
    exact hc
  | map val =>
    simp only [Normalized] at h ⊢
    obtain ⟨q, m, hv, hq, hc, hl⟩ := h
    refine ⟨q, m, hv, le_trans ho hq, ?_,
      NormalizedEntries_transfer val a o a' o' σ σ' A O m ha ho f hA hO hl⟩
    rw [f.2.2.2 q (cell_lt_objects hc) (fun hf => absurd (hO q hf) (by omega))]
    exact hc
  | mapPtr val =>
    simp only [Normalized] at h ⊢
    obtain ⟨q, m, hv, hq, hc, hl⟩ := h
    refine ⟨q, m, hv, le_trans ho hq, ?_,
      NormalizedEntries_transfer val a o a' o' σ σ' A O m ha ho f hA hO hl⟩
    rw [f.2.2.2 q (cell_lt_objects hc) (fun hf => absurd (hO q hf) (by omega))]
    exact hc
  | nil => simpa only [Normalized] using h
  | bool b => simpa only [Normalized] using h
  | string s => simpa only [Normalized] using h
  | number s => simpa only [Normalized] using h
  | int i => simpa only [Normalized] using h
  | uint u => simpa only [Normalized] using h
  | float f => simpa only [Normalized] using h
  | jsonArray p => simpa only [Normalized] using h
  | jsonObject p => simpa only [Normalized] using h
  | other t => simpa only [Normalized] using h
theorem NormalizedList_transfer (xs : List Iface) (a o a' o' : Nat) (σ σ' : Heap)
    (A O : Nat → Prop) (ys : List Iface) (ha : a' ≤ a) (ho : o' ≤ o) (f : Frame σ σ' A O)
    (hA : ∀ q, A q → q < a) (hO : ∀ q, O q → q < o) (h : NormalizedList a o σ xs ys) :
    NormalizedList a' o' σ' xs ys := by
  cases xs with
  | nil => simpa only [NormalizedList] using h
  | cons x rest =>
    simp only [NormalizedList] at h ⊢
    obtain ⟨y, ys', hy, hn, hl⟩ := h
    exact ⟨y, ys', hy, Normalized_transfer x a o a' o' σ σ' A O y ha ho f hA hO hn,
      NormalizedList_transfer rest a o a' o' σ σ' A O ys' ha ho f hA hO hl⟩
theorem NormalizedEntries_transfer (xs : List (String × Iface)) (a o a' o' : Nat)
    (σ σ' : Heap) (A O : Nat → Prop) (m : List (String × Iface)) (ha : a' ≤ a)
    (ho : o' ≤ o) (f : Frame σ σ' A O)
    (hA : ∀ q, A q → q < a) (hO : ∀ q, O q → q < o) (h : NormalizedEntries a o σ xs m) :
    NormalizedEntries a' o' σ' xs m := by
  cases xs with
  | nil => simpa only [NormalizedEntries] using h
  | cons e rest =>
    obtain ⟨k, x⟩ := e
    simp only [NormalizedEntries] at h ⊢
    obtain ⟨y, m', hy, hn, hl⟩ := h
    exact ⟨y, m', hy, Normalized_transfer x a o a' o' σ σ' A O y ha ho f hA hO hn,
      NormalizedEntries_transfer rest a o a' o' σ σ' A O m' ha ho f hA hO hl⟩
end

theorem mapSet_new (m : List (String × Iface)) (k : String) (v : Iface)
    (h : k ∉ m.map Prod.fst) : mapSet m k v = m ++ [(k, v)] := by
  induction m with
  | nil => rfl
  | cons e rest ih =>
    obtain ⟨k0, v0⟩ := e
    simp only [List.map_cons, List.mem_cons, not_or] at h
    simp [mapSet, Ne.symm h.1, ih h.2]


theorem cell_of_frame_arrays {σ σ' : Heap} {A O : Nat → Prop} (f : Frame σ σ' A O)
    {p : Nat} {xs : List Iface} (h : σ.arrays[p]? = some xs) (hA : ¬ A p) :
    σ'.arrays[p]? = some xs :=
  (f.2.2.1 p (cell_lt_arrays h) hA).trans h

theorem cell_of_frame_objects {σ σ' : Heap} {A O : Nat → Prop} (f : Frame σ σ' A O)
    {p : Nat} {m : List (String × Iface)} (h : σ.objects[p]? = some m) (hO : ¬ O p) :
    σ'.objects[p]? = some m :=
  (f.2.2.2 p (cell_lt_objects h) hO).trans h

theorem jsonArray_Add_cell {σ : Heap} {arr : Nat} {xs : List Iface}
    (h : σ.arrays[arr]? = some xs) (v : Iface) :
    ∃ σ', jsonArray.Add σ arr v = .ok σ' ∧ Frame σ σ' (· = arr) (fun _ => False)
      ∧ σ'.arrays[arr]? = some (xs ++ [v]) := by
  have hp := cell_lt_arrays h
  obtain ⟨σ', ha, f, hc⟩ := jsonArray_Add_ok hp v
  have hx : σ.arrays[arr] = xs := by
    rw [List.getElem?_eq_getElem hp] at h
    exact Option.some.inj h
  rw [hx] at hc
  exact ⟨σ', ha, f, hc⟩

theorem jsonObject_Add_cell {σ : Heap} {obj : Nat} {m : List (String × Iface)}
    (h : σ.objects[obj]? = some m) (k : String) (v : Iface) :
    ∃ σ', jsonObject.Add σ obj k v = .ok σ' ∧ Frame σ σ' (fun _ => False) (· = obj)
      ∧ σ'.objects[obj]? = some (mapSet m k v) := by
  have hp := cell_lt_objects h
  obtain ⟨σ', ha, f, hc⟩ := jsonObject_Add_ok hp k v
  have hx : σ.objects[obj] = m := by
    rw [List.getElem?_eq_getElem hp] at h
    exact Option.some.inj h
  rw [hx] at hc
  exact ⟨σ', ha, f, hc⟩

mutual
/-- On an item that holds no nil pointer the type switch returns the normal
form of its item, built from fresh cells. -/
theorem wrap_normalized (x : Iface) (σ : Heap) (hx : x.keysNodup = true)
    (hn : x.noNilPtr = true) :
    ∃ σ' v, wrap σ x = .ok (σ', v) ∧ Frame σ σ' (fun _ => False) (fun _ => False) ∧
      Normalized σ.arrays.length σ.objects.length σ' x v := by
  cases x with
  | nilSlicePtr => simp [Iface.noNilPtr] at hn
  | nilMapPtr => simp [Iface.noNilPtr] at hn
  | slice val =>
    simp only [Iface.keysNodup] at hx
    simp only [Iface.noNilPtr] at hn
    obtain ⟨σ1, ys, hl, f1, hc, hnl⟩ :=
      arrayLoop_normalized val (σ.newArray).1 (σ.newArray).2 [] (newArray_cell σ) hx hn
    obtain ⟨σ1', v', hw', fw⟩ := wrap_ok (.slice val) σ (by simpa only [Iface.noNilPtr] using hn)
    have hw : wrap σ (.slice val) = .ok (σ1, .jsonArray (σ.newArray).2) := by
      simp only [wrap, hl]
    rw [hw] at hw'
    injection hw' with hw'
    injection hw' with e1 e2
    subst e1
    refine ⟨σ1, _, hw, fw, ?_⟩
    simp only [Normalized]
    refine ⟨(σ.newArray).2, ys, rfl, le_rfl, by simpa using hc, ?_⟩
    exact NormalizedList_transfer val _ _ _ _ σ1 σ1 (fun _ => False) (fun _ => False) ys
      (by simp [Heap.newArray]) (by simp [Heap.newArray]) (Frame_refl _ _ _)
      (fun _ hf => hf.elim) (fun _ hf => hf.elim) hnl
  | slicePtr val =>
    simp only [Iface.keysNodup] at hx
    simp only [Iface.noNilPtr] at hn
    obtain ⟨σ1, ys, hl, f1, hc, hnl⟩ :=
      arrayLoop_normalized val (σ.newArray).1 (σ.newArray).2 [] (newArray_cell σ) hx hn
    obtain ⟨σ1', v', hw', fw⟩ := wrap_ok (.slicePtr val) σ (by simpa only [Iface.noNilPtr] using hn)
    have hw : wrap σ (.slicePtr val) = .ok (σ1, .jsonArray (σ.newArray).2) := by
      simp only [wrap, hl]
    rw [hw] at hw'
    injection hw' with hw'
    injection hw' with e1 e2
    subst e1
    refine ⟨σ1, _, hw, fw, ?_⟩
    simp only [Normalized]
    refine ⟨(σ.newArray).2, ys, rfl, le_rfl, by simpa using hc, ?_⟩
    exact NormalizedList_transfer val _ _ _ _ σ1 σ1 (fun _ => False) (fun _ => False) ys
      (by simp [Heap.newArray]) (by simp [Heap.newArray]) (Frame_refl _ _ _)
      (fun _ hf => hf.elim) (fun _ hf => hf.elim) hnl
  | map val =>
    simp only [Iface.keysNodup, Bool.and_eq_true, decide_eq_true_eq] at hx
    simp only [Iface.noNilPtr] at hn
    obtain ⟨σ1, zs, hl, f1, hc, hnl⟩ :=
      objectLoop_normalized val (σ.newObject).1 (σ.newObject).2 [] (newObject_cell σ) hx.2
        (by simpa using hx.1) hn
    obtain ⟨σ1', v', hw', fw⟩ := wrap_ok (.map val) σ (by simpa only [Iface.noNilPtr] using hn)
    have hw : wrap σ (.map val) = .ok (σ1, .jsonObject (σ.newObject).2) := by
      simp only [wrap, hl]
    rw [hw] at hw'
    injection hw' with hw'
    injection hw' with e1 e2
    subst e1
    refine ⟨σ1, _, hw, fw, ?_⟩
    simp only [Normalized]
    refine ⟨(σ.newObject).2, zs, rfl, le_rfl, by simpa using hc, ?_⟩
    exact NormalizedEntries_transfer val _ _ _ _ σ1 σ1 (fun _ => False) (fun _ => False) zs
      (by simp [Heap.newObject]) (by simp [Heap.newObject]) (Frame_refl _ _ _)
      (fun _ hf => hf.elim) (fun _ hf => hf.elim) hnl
  | mapPtr val =>
    simp only [Iface.keysNodup, Bool.and_eq_true, decide_eq_true_eq] at hx
    simp only [Iface.noNilPtr] at hn
    obtain ⟨σ1, zs, hl, f1, hc, hnl⟩ :=
      objectLoop_normalized val (σ.newObject).1 (σ.newObject).2 [] (newObject_cell σ) hx.2
        (by simpa using hx.1) hn
    obtain ⟨σ1', v', hw', fw⟩ := wrap_ok (.mapPtr val) σ (by simpa only [Iface.noNilPtr] using hn)
    have hw : wrap σ (.mapPtr val) = .ok (σ1, .jsonObject (σ.newObject).2) := by
      simp only [wrap, hl]
    rw [hw] at hw'
    injection hw' with hw'
    injection hw' with e1 e2
    subst e1
    refine ⟨σ1, _, hw, fw, ?_⟩
    simp only [Normalized]
    refine ⟨(σ.newObject).2, zs, rfl, le_rfl, by simpa using hc, ?_⟩
    exact NormalizedEntries_transfer val _ _ _ _ σ1 σ1 (fun _ => False) (fun _ => False) zs
      (by simp [Heap.newObject]) (by simp [Heap.newObject]) (Frame_refl _ _ _)
      (fun _ hf => hf.elim) (fun _ hf => hf.elim) hnl
  | nil => exact ⟨σ, _, rfl, Frame_refl _ _ _, by simp only [Normalized]⟩
  | bool b => exact ⟨σ, _, rfl, Frame_refl _ _ _, by simp only [Normalized]⟩
  | string s => exact ⟨σ, _, rfl, Frame_refl _ _ _, by simp only [Normalized]⟩
  | number s => exact ⟨σ, _, rfl, Frame_refl _ _ _, by simp only [Normalized]⟩
  | int i => exact ⟨σ, _, rfl, Frame_refl _ _ _, by simp only [Normalized]⟩
  | uint u => exact ⟨σ, _, rfl, Frame_refl _ _ _, by simp only [Normalized]⟩
  | float f => exact ⟨σ, _, rfl, Frame_refl _ _ _, by simp only [Normalized]⟩
  | jsonArray p => exact ⟨σ, _, rfl, Frame_refl _ _ _, by simp only [Normalized]⟩
  | jsonObject p => exact ⟨σ, _, rfl, Frame_refl _ _ _, by simp only [Normalized]⟩
  | other t => exact ⟨σ, _, rfl, Frame_refl _ _ _, by simp only [Normalized]⟩
/-- The loop of `NewjsonArray` appends to its array the normal forms of the
items, in order. -/
theorem arrayLoop_normalized (xs : List Iface) (σ : Heap) (arr : Nat) (ys0 : List Iface)
    (h : σ.arrays[arr]? = some ys0) (hx : listKeysNodup xs = true)
    (hn : listNoNilPtr xs = true) :
    ∃ σ' ys, arrayLoop σ arr xs = .ok σ' ∧ Frame σ σ' (· = arr) (fun _ => False) ∧
      σ'.arrays[arr]? = some (ys0 ++ ys) ∧
      NormalizedList σ.arrays.length σ.objects.length σ' xs ys := by
  cases xs with
  | nil =>
    exact ⟨σ, [], rfl, Frame_refl _ _ _, by simpa using h, by simp only [NormalizedList]⟩
  | cons item rest =>
    simp only [listKeysNodup, Bool.and_eq_true] at hx
    simp only [listNoNilPtr, Bool.and_eq_true] at hn
    have hp := cell_lt_arrays h
    obtain ⟨σ1, v, hw, f1, n1⟩ := wrap_normalized item σ hx.1 hn.1
    obtain ⟨σ2, ha, f2, hc2⟩ :=
      jsonArray_Add_cell (cell_of_frame_arrays f1 h (fun hf => hf)) v
    obtain ⟨σ3, ys', hl, f3, hc3, n3⟩ := arrayLoop_normalized rest σ2 arr (ys0 ++ [v]) hc2 hx.2 hn.2
    have f13 : Frame σ1 σ3 (· = arr) (fun _ => False) := Frame_trans f2 f3
    refine ⟨σ3, v :: ys', by simp only [arrayLoop, hw, ha, hl],
      Frame_trans (Frame_mono f1 (fun _ hf => hf.elim) (fun _ hf => hf)) f13,
      by simpa using hc3, ?_⟩
    simp only [NormalizedList]
    refine ⟨v, ys', rfl, ?_, ?_⟩
    · exact Normalized_transfer item _ _ _ _ σ1 σ3 (· = arr) (fun _ => False) v le_rfl le_rfl
        f13 (fun q hq => by rw [hq]; exact hp) (fun _ hf => hf.elim) n1
    · exact NormalizedList_transfer rest _ _ _ _ σ3 σ3 (fun _ => False) (fun _ => False) ys'
        (le_trans f1.1 f2.1) (le_trans f1.2.1 f2.2.1) (Frame_refl _ _ _)
        (fun _ hf => hf.elim) (fun _ hf => hf.elim) n3
/-- The loop of `NewjsonObject` appends to its map the keys of the entries, in
order, each with the normal form of its value. -/
theorem objectLoop_normalized (m : List (String × Iface)) (σ : Heap) (obj : Nat)
    (m0 : List (String × Iface)) (h : σ.objects[obj]? = some m0)
    (hx : entriesKeysNodup m = true) (hk : ((m0 ++ m).map Prod.fst).Nodup)
    (hn : entriesNoNilPtr m = true) :
    ∃ σ' zs, objectLoop σ obj m = .ok σ' ∧ Frame σ σ' (fun _ => False) (· = obj) ∧
      σ'.objects[obj]? = some (m0 ++ zs) ∧
      NormalizedEntries σ.arrays.length σ.objects.length σ' m zs := by
  cases m with
  | nil =>
    exact ⟨σ, [], rfl, Frame_refl _ _ _, by simpa using h, by simp only [NormalizedEntries]⟩
  | cons e rest =>
    obtain ⟨key, item⟩ := e
    simp only [entriesKeysNodup, Bool.and_eq_true] at hx
    simp only [entriesNoNilPtr, Bool.and_eq_true] at hn
    have hp := cell_lt_objects h
    have hnew : key ∉ m0.map Prod.fst := by
      intro hmem
      rw [List.map_append, List.nodup_append] at hk
      exact hk.2.2 hmem (by simp)
    obtain ⟨σ1, v, hw, f1, n1⟩ := wrap_normalized item σ hx.1 hn.1
    obtain ⟨σ2, ha, f2, hc2⟩ :=
      jsonObject_Add_cell (cell_of_frame_objects f1 h (fun hf => hf)) key v
    rw [mapSet_new m0 key v hnew] at hc2
    obtain ⟨σ3, zs', hl, f3, hc3, n3⟩ :=
      objectLoop_normalized rest σ2 obj (m0 ++ [(key, v)]) hc2 hx.2 (by simpa using hk) hn.2
    have f13 : Frame σ1 σ3 (fun _ => False) (· = obj) := Frame_trans f2 f3
    refine ⟨σ3, (key, v) :: zs', by simp only [objectLoop, hw, ha, hl],
      Frame_trans (Frame_mono f1 (fun _ hf => hf) (fun _ hf => hf.elim)) f13,
      by simpa using hc3, ?_⟩
    simp only [NormalizedEntries]
    refine ⟨v, zs', rfl, ?_, ?_⟩
    · exact Normalized_transfer item _ _ _ _ σ1 σ3 (fun _ => False) (· = obj) v le_rfl le_rfl
        f13 (fun _ hf => hf.elim) (fun q hq => by rw [hq]; exact hp) n1
    · exact NormalizedEntries_transfer rest _ _ _ _ σ3 σ3 (fun _ => False) (fun _ => False) zs'
        (le_trans f1.1 f2.1) (le_trans f1.2.1 f2.2.1) (Frame_refl _ _ _)
        (fun _ hf => hf.elim) (fun _ hf => hf.elim) n3
end


theorem Normalized_not_raw (x : Iface) (a o : Nat) (σ : Heap) (v : Iface)
    (h : Normalized a o σ x v) : v.isRaw = false := by
  cases x <;> simp only [Normalized] at h
  all_goals
    obtain ⟨_, _, rfl, _⟩ := h
    rfl

theorem NormalizedList_not_raw (xs : List Iface) (a o : Nat) (σ : Heap) (ys : List Iface)
    (h : NormalizedList a o σ xs ys) : ys.length = xs.length ∧ ∀ y ∈ ys, y.isRaw = false := by
  induction xs generalizing ys with
  | nil =>
    simp only [NormalizedList] at h
    subst h
    simp
  | cons x rest ih =>
    simp only [NormalizedList] at h
    obtain ⟨y, ys', rfl, hn, hl⟩ := h
    obtain ⟨hlen, hall⟩ := ih ys' hl
    refine ⟨by simp [hlen], ?_⟩
    intro z hz
    rcases List.mem_cons.mp hz with rfl | hz
    · exact Normalized_not_raw x a o σ _ hn
    · exact hall z hz

theorem NormalizedEntries_not_raw (xs : List (String × Iface)) (a o : Nat) (σ : Heap)
    (m : List (String × Iface)) (h : NormalizedEntries a o σ xs m) :
    m.map Prod.fst = xs.map Prod.fst ∧ ∀ e ∈ m, e.2.isRaw = false := by
  induction xs generalizing m with
  | nil =>
    simp only [NormalizedEntries] at h
    subst h
    simp
  | cons e rest ih =>
    obtain ⟨k, x⟩ := e
    simp only [NormalizedEntries] at h
    obtain ⟨y, m', rfl, hn, hl⟩ := h
    obtain ⟨hkeys, hall⟩ := ih m' hl
    refine ⟨by simp [hkeys], ?_⟩
    intro z hz
    rcases List.mem_cons.mp hz with rfl | hz
    · exact Normalized_not_raw x a o σ _ hn
    · exact hall z hz

/-- The result of `NewjsonArray` read off the loop. -/
theorem NewjsonArray_of_loop (σ σ1 : Heap) (data : List Iface)
    (h : arrayLoop (σ.newArray).1 (σ.newArray).2 data = .ok σ1) :
    NewjsonArray σ data = .ok (σ1, σ.arrays.length) := by
  simp only [NewjsonArray, h]
  rfl

/-- The result of `NewjsonObject` read off the loop. -/
theorem NewjsonObject_of_loop (σ σ1 : Heap) (data : List (String × Iface))
    (h : objectLoop (σ.newObject).1 (σ.newObject).2 data = .ok σ1) :
    NewjsonObject σ data = .ok (σ1, σ.objects.length) := by
  simp only [NewjsonObject, h]
  rfl

theorem Frame_after_newArray {σ σ1 : Heap}
    (f : Frame (σ.newArray).1 σ1 (· = (σ.newArray).2) (fun _ => False)) :
    Frame σ σ1 (fun _ => False) (fun _ => False) := by
  have f0 := Frame_newArray σ (fun _ => False) (fun _ => False)
  refine ⟨le_trans f0.1 f.1, le_trans f0.2.1 f.2.1, fun p hp _ => ?_, fun p hp _ => ?_⟩
  · rw [f.2.2.1 p (lt_of_lt_of_le hp f0.1) (by simp [Heap.newArray]; omega)]
    exact f0.2.2.1 p hp (fun hf => hf)
  · rw [f.2.2.2 p hp (fun hf => hf)]
    rfl

theorem Frame_after_newObject {σ σ1 : Heap}
    (f : Frame (σ.newObject).1 σ1 (fun _ => False) (· = (σ.newObject).2)) :
    Frame σ σ1 (fun _ => False) (fun _ => False) := by
  have f0 := Frame_newObject σ (fun _ => False) (fun _ => False)
  refine ⟨le_trans f0.1 f.1, le_trans f0.2.1 f.2.1, fun p hp _ => ?_, fun p hp _ => ?_⟩
  · rw [f.2.2.1 p hp (fun hf => hf)]
    rfl
  · rw [f.2.2.2 p (lt_of_lt_of_le hp f0.2.1) (by simp [Heap.newObject]; omega)]
    exact f0.2.2.2 p hp (fun hf => hf)

/-- C13 fails on a tree that holds a nil pointer: on the slice
`[1, (*[]interface{})(nil)]`, on the slice `[[(*map[string]interface{})(nil)]]`
(the nil pointer one level down) and on the map `{a: (*[]interface{})(nil)}`
the constructors dereference the nil pointer and panic instead of producing a
tree. -/
theorem normalization_total_counterexample :
    NewjsonArray ⟨[], []⟩ [.int 1, .nilSlicePtr] = .error .nilDereference ∧
    NewjsonArray ⟨[], []⟩ [.slice [.nilMapPtr]] = .error .nilDereference ∧
    NewjsonObject ⟨[], []⟩ [("a", .nilSlicePtr)] = .error .nilDereference :=
  ⟨rfl, rfl, rfl⟩

/-- C13, amended: normalization is total on trees that hold no nil pointer.
For every raw slice `data` and raw map `m` that hold no nil pointer to a slice
or map, at any depth (and whose maps, at every depth, list each key once, as Go
maps do) `NewjsonArray` and `NewjsonObject` return normally with a fresh
pointer whose cell lists the normal forms of the elements in the same order,
resp. the same keys with the normal forms of their values: at every depth a
raw slice or map, or a non-nil pointer to one, has become a `*jsonArray` or
`*jsonObject` with a cell of its own, every other value is kept as it was, no
stored value is a raw container, and no cell that existed before has
changed. -/
theorem normalization_total (σ : Heap) :
    (∀ data, listKeysNodup data = true → listNoNilPtr data = true →
      ∃ σ' ys, NewjsonArray σ data = .ok (σ', σ.arrays.length) ∧
        σ'.arrays[σ.arrays.length]? = some ys ∧
        NormalizedList σ.arrays.length σ.objects.length σ' data ys ∧
        ys.length = data.length ∧ (∀ y ∈ ys, y.isRaw = false) ∧
        Frame σ σ' (fun _ => False) (fun _ => False)) ∧
    (∀ m, (m.map Prod.fst).Nodup → entriesKeysNodup m = true → entriesNoNilPtr m = true →
      ∃ σ' zs, NewjsonObject σ m = .ok (σ', σ.objects.length) ∧
        σ'.objects[σ.objects.length]? = some zs ∧
        NormalizedEntries σ.arrays.length σ.objects.length σ' m zs ∧
        zs.map Prod.fst = m.map Prod.fst ∧ (∀ e ∈ zs, e.2.isRaw = false) ∧
        Frame σ σ' (fun _ => False) (fun _ => False)) := by
  refine ⟨fun data hd hp => ?_, fun m hk hm hp => ?_⟩
  · obtain ⟨σ1, ys, hl, f1, hc, hn⟩ :=
      arrayLoop_normalized data (σ.newArray).1 (σ.newArray).2 [] (newArray_cell σ) hd hp
    have hn' := NormalizedList_transfer data _ _ σ.arrays.length σ.objects.length σ1 σ1
      (fun _ => False) (fun _ => False) ys (by simp [Heap.newArray])
      (by simp [Heap.newArray]) (Frame_refl _ _ _) (fun _ hf => hf.elim)
      (fun _ hf => hf.elim) hn
    obtain ⟨hlen, hraw⟩ := NormalizedList_not_raw data _ _ σ1 ys hn'
    exact ⟨σ1, ys, NewjsonArray_of_loop σ σ1 data hl, by simpa using hc, hn', hlen, hraw,
      Frame_after_newArray f1⟩
  · obtain ⟨σ1, zs, hl, f1, hc, hn⟩ :=
      objectLoop_normalized m (σ.newObject).1 (σ.newObject).2 [] (newObject_cell σ) hm
        (by simpa using hk) hp
    have hn' := NormalizedEntries_transfer m _ _ σ.arrays.length σ.objects.length σ1 σ1
      (fun _ => False) (fun _ => False) zs (by simp [Heap.newObject])
      (by simp [Heap.newObject]) (Frame_refl _ _ _) (fun _ hf => hf.elim)
      (fun _ hf => hf.elim) hn
    obtain ⟨hkeys, hraw⟩ := NormalizedEntries_not_raw m _ _ σ1 zs hn'
    exact ⟨σ1, zs, NewjsonObject_of_loop σ σ1 m hl, by simpa using hc, hn', hkeys, hraw,
      Frame_after_newObject f1⟩

/-- C13 at a concrete input: the raw slice `[1, [true], {a: *[]}]` over the
empty heap. -/
theorem normalization_total_witness :
    (listKeysNodup [.int 1, .slice [.bool true], .map [("a", .slicePtr [])]] = true ∧
      listNoNilPtr [.int 1, .slice [.bool true], .map [("a", .slicePtr [])]] = true) ∧
    ∃ σ' ys, NewjsonArray ⟨[], []⟩ [.int 1, .slice [.bool true], .map [("a", .slicePtr [])]]
        = .ok (σ', 0) ∧
      σ'.arrays[0]? = some ys ∧
      NormalizedList 0 0 σ' [.int 1, .slice [.bool true], .map [("a", .slicePtr [])]] ys ∧
      ys.length = [Iface.int 1, .slice [.bool true], .map [("a", .slicePtr [])]].length ∧
      (∀ y ∈ ys, y.isRaw = false) ∧
      Frame ⟨[], []⟩ σ' (fun _ => False) (fun _ => False) :=
  ⟨⟨by decide, rfl⟩, (normalization_total ⟨[], []⟩).1
    [.int 1, .slice [.bool true], .map [("a", .slicePtr [])]] (by decide) rfl⟩


/-- On items none of which is a raw container the loop of `NewjsonArray`
appends the items themselves and touches nothing else. -/
theorem arrayLoop_not_raw (xs : List Iface) (σ : Heap) (arr : Nat) (ys0 : List Iface)
    (h : σ.arrays[arr]? = some ys0) (hx : ∀ x ∈ xs, x.isRaw = false) :
    ∃ σ', arrayLoop σ arr xs = .ok σ' ∧ Frame σ σ' (· = arr) (fun _ => False) ∧
      σ'.arrays[arr]? = some (ys0 ++ xs) := by
  induction xs generalizing σ ys0 with
  | nil => exact ⟨σ, rfl, Frame_refl _ _ _, by simpa using h⟩
  | cons item rest ih =>
    obtain ⟨σ2, ha, f2, hc2⟩ := jsonArray_Add_cell h item
    obtain ⟨σ3, hl, f3, hc3⟩ := ih σ2 (ys0 ++ [item]) hc2
      (fun x hx' => hx x (List.mem_cons_of_mem _ hx'))
    refine ⟨σ3, ?_, Frame_trans f2 f3, by simpa using hc3⟩
    simp only [arrayLoop, wrap_not_raw σ item (hx item (List.mem_cons_self _ _)), ha, hl]

/-- On entries with distinct new keys and no raw container as a value the loop
of `NewjsonObject` appends the entries themselves and touches nothing else. -/
theorem objectLoop_not_raw (m : List (String × Iface)) (σ : Heap) (obj : Nat)
    (m0 : List (String × Iface)) (h : σ.objects[obj]? = some m0)
    (hx : ∀ e ∈ m, e.2.isRaw = false) (hk : ((m0 ++ m).map Prod.fst).Nodup) :
    ∃ σ', objectLoop σ obj m = .ok σ' ∧ Frame σ σ' (fun _ => False) (· = obj) ∧
      σ'.objects[obj]? = some (m0 ++ m) := by
  induction m generalizing σ m0 with
  | nil => exact ⟨σ, rfl, Frame_refl _ _ _, by simpa using h⟩
  | cons e rest ih =>
    obtain ⟨key, item⟩ := e
    have hnew : key ∉ m0.map Prod.fst := by
      intro hmem
      rw [List.map_append, List.nodup_append] at hk
      exact hk.2.2 hmem (by simp)
    obtain ⟨σ2, ha, f2, hc2⟩ := jsonObject_Add_cell h key item
    rw [mapSet_new m0 key item hnew] at hc2
    obtain ⟨σ3, hl, f3, hc3⟩ := ih σ2 (m0 ++ [(key, item)]) hc2
      (fun x hx' => hx x (List.mem_cons_of_mem _ hx')) (by simpa using hk)
    refine ⟨σ3, ?_, Frame_trans f2 f3, by simpa using hc3⟩
    simp only [objectLoop,
      wrap_not_raw σ item (hx (key, item) (List.mem_cons_self _ _)), ha, hl]

/-- C14: normalization is idempotent. Applied to the elements of an
already-normalized array (no element is a raw container) `NewjsonArray` returns
a fresh pointer whose cell lists exactly those elements, nested containers
being the same pointers with unchanged cells; likewise `NewjsonObject` on the
entries of an already-normalized object. So normalizing the result of a
normalization (of a raw tree that the constructors accept: one that holds no
nil pointer) yields a cell equal to the one it was given. -/
theorem normalization_idempotent (σ : Heap) :
    (∀ xs, (∀ x ∈ xs, x.isRaw = false) →
      ∃ σ', NewjsonArray σ xs = .ok (σ', σ.arrays.length) ∧
        σ'.arrays[σ.arrays.length]? = some xs ∧
        Frame σ σ' (fun _ => False) (fun _ => False)) ∧
    (∀ m, (m.map Prod.fst).Nodup → (∀ e ∈ m, e.2.isRaw = false) →
      ∃ σ', NewjsonObject σ m = .ok (σ', σ.objects.length) ∧
        σ'.objects[σ.objects.length]? = some m ∧
        Frame σ σ' (fun _ => False) (fun _ => False)) ∧
    (∀ data, listKeysNodup data = true → listNoNilPtr data = true →
      ∃ σ1 ys σ2, NewjsonArray σ data = .ok (σ1, σ.arrays.length) ∧
        σ1.arrays[σ.arrays.length]? = some ys ∧
        NewjsonArray σ1 ys = .ok (σ2, σ1.arrays.length) ∧
        σ2.arrays[σ1.arrays.length]? = some ys ∧
        Frame σ1 σ2 (fun _ => False) (fun _ => False)) ∧
    (∀ m, (m.map Prod.fst).Nodup → entriesKeysNodup m = true → entriesNoNilPtr m = true →
      ∃ σ1 zs σ2, NewjsonObject σ m = .ok (σ1, σ.objects.length) ∧
        σ1.objects[σ.objects.length]? = some zs ∧
        NewjsonObject σ1 zs = .ok (σ2, σ1.objects.length) ∧
        σ2.objects[σ1.objects.length]? = some zs ∧
        Frame σ1 σ2 (fun _ => False) (fun _ => False)) := by
  have hA : ∀ (τ : Heap) (xs : List Iface), (∀ x ∈ xs, x.isRaw = false) →
      ∃ τ', NewjsonArray τ xs = .ok (τ', τ.arrays.length) ∧
        τ'.arrays[τ.arrays.length]? = some xs ∧
        Frame τ τ' (fun _ => False) (fun _ => False) := by
    intro τ xs hx
    obtain ⟨τ1, hl, f1, hc⟩ :=
      arrayLoop_not_raw xs (τ.newArray).1 (τ.newArray).2 [] (newArray_cell τ) hx
    exact ⟨τ1, NewjsonArray_of_loop τ τ1 xs hl, by simpa using hc, Frame_after_newArray f1⟩
  have hO : ∀ (τ : Heap) (m : List (String × Iface)), (m.map Prod.fst).Nodup →
      (∀ e ∈ m, e.2.isRaw = false) →
      ∃ τ', NewjsonObject τ m = .ok (τ', τ.objects.length) ∧
        τ'.objects[τ.objects.length]? = some m ∧
        Frame τ τ' (fun _ => False) (fun _ => False) := by
    intro τ m hk hx
    obtain ⟨τ1, hl, f1, hc⟩ :=
      objectLoop_not_raw m (τ.newObject).1 (τ.newObject).2 [] (newObject_cell τ) hx
        (by simpa using hk)
    exact ⟨τ1, NewjsonObject_of_loop τ τ1 m hl, by simpa using hc, Frame_after_newObject f1⟩
  refine ⟨hA σ, hO σ, fun data hd hp => ?_, fun m hk hm hp => ?_⟩
  · obtain ⟨σ1, ys, hl, _, hc, hn⟩ :=
      arrayLoop_normalized data (σ.newArray).1 (σ.newArray).2 [] (newArray_cell σ) hd hp
    obtain ⟨_, hraw⟩ := NormalizedList_not_raw data _ _ σ1 ys hn
    obtain ⟨σ2, h2, hc2, f2⟩ := hA σ1 ys hraw
    exact ⟨σ1, ys, σ2, NewjsonArray_of_loop σ σ1 data hl, by simpa using hc, h2, hc2, f2⟩
  · obtain ⟨σ1, zs, hl, _, hc, hn⟩ :=
      objectLoop_normalized m (σ.newObject).1 (σ.newObject).2 [] (newObject_cell σ) hm
        (by simpa using hk) hp
    obtain ⟨hkeys, hraw⟩ := NormalizedEntries_not_raw m _ _ σ1 zs hn
    obtain ⟨σ2, h2, hc2, f2⟩ := hO σ1 zs (by rw [hkeys]; exact hk) hraw
    exact ⟨σ1, zs, σ2, NewjsonObject_of_loop σ σ1 m hl, by simpa using hc, h2, hc2, f2⟩

/-- C14 at a concrete input: the normalized array `[1, *jsonArray 0]` over a
heap whose array 0 is `[true]`, and the raw slice `[1, [true]]` normalized
twice. -/
theorem normalization_idempotent_witness :
    ((∀ x ∈ [Iface.int 1, Iface.jsonArray 0], x.isRaw = false) ∧
      listKeysNodup [.int 1, .slice [.bool true]] = true ∧
      listNoNilPtr [.int 1, .slice [.bool true]] = true) ∧
    (∃ σ', NewjsonArray ⟨[[.bool true]], []⟩ [.int 1, .jsonArray 0] = .ok (σ', 1) ∧
      σ'.arrays[1]? = some [.int 1, .jsonArray 0] ∧
      Frame ⟨[[.bool true]], []⟩ σ' (fun _ => False) (fun _ => False)) ∧
    (∃ σ1 ys σ2, NewjsonArray ⟨[], []⟩ [.int 1, .slice [.bool true]] = .ok (σ1, 0) ∧
      σ1.arrays[0]? = some ys ∧
      NewjsonArray σ1 ys = .ok (σ2, σ1.arrays.length) ∧
      σ2.arrays[σ1.arrays.length]? = some ys ∧
      Frame σ1 σ2 (fun _ => False) (fun _ => False)) :=
  ⟨⟨by decide, by decide, rfl⟩,
   (normalization_idempotent ⟨[[.bool true]], []⟩).1 [.int 1, .jsonArray 0] (by decide),
   (normalization_idempotent ⟨[], []⟩).2.2.1 [.int 1, .slice [.bool true]] (by decide) rfl⟩


/-! ## Nested containers are live -/

/-- What `ArrayAdd` leaves behind on an array cell for an item that holds no
nil pointer: the normal form of the item, built from fresh cells. -/
theorem ArrayAdd_normalized (σ : Heap) (p : Nat) (xs : List Iface) (x : Iface)
    (h : σ.arrays[p]? = some xs) (hk : x.keysNodup = true) (hn : x.noNilPtr = true) :
    ∃ σ2 v, QJson.ArrayAdd σ ⟨.jsonArray p⟩ x = .ok (σ2, ⟨.jsonArray p⟩) ∧
      σ2.arrays[p]? = some (xs ++ [v]) ∧
      Normalized σ.arrays.length σ.objects.length σ2 x v ∧
      Frame σ σ2 (· = p) (fun _ => False) := by
  obtain ⟨σ1, v, hw, f1, n1⟩ := wrap_normalized x σ hk hn
  have hp := cell_lt_arrays h
  obtain ⟨σ2, ha, f2, hc2⟩ := jsonArray_Add_cell (cell_of_frame_arrays f1 h (fun hf => hf)) v
  refine ⟨σ2, v, by simp [QJson.ArrayAdd, QJson.asArray, hw, ha], hc2, ?_,
    Frame_trans (Frame_mono f1 (fun _ hf => hf.elim) (fun _ hf => hf)) f2⟩
  exact Normalized_transfer x _ _ _ _ σ1 σ2 (· = p) (fun _ => False) v (le_refl _)
    (le_refl _) f2 (fun q hq => by rw [hq]; exact hp) (fun _ hf => hf.elim) n1

/-- What `ObjectAdd` leaves behind on an object cell for an item that holds no
nil pointer: the normal form of the item, built from fresh cells. -/
theorem ObjectAdd_normalized (σ : Heap) (p : Nat) (m : List (String × Iface)) (k : String)
    (x : Iface) (h : σ.objects[p]? = some m) (hk : x.keysNodup = true)
    (hn : x.noNilPtr = true) :
    ∃ σ2 v, QJson.ObjectAdd σ ⟨.jsonObject p⟩ k x = .ok (σ2, ⟨.jsonObject p⟩) ∧
      σ2.objects[p]? = some (mapSet m k v) ∧
      Normalized σ.arrays.length σ.objects.length σ2 x v ∧
      Frame σ σ2 (fun _ => False) (· = p) := by
  obtain ⟨σ1, v, hw, f1, n1⟩ := wrap_normalized x σ hk hn
  have hp := cell_lt_objects h
  obtain ⟨σ2, ha, f2, hc2⟩ :=
    jsonObject_Add_cell (cell_of_frame_objects f1 h (fun hf => hf)) k v
  refine ⟨σ2, v, by simp [QJson.ObjectAdd, QJson.asObject, hw, ha], hc2, ?_,
    Frame_trans (Frame_mono f1 (fun _ hf => hf) (fun _ hf => hf.elim)) f2⟩
  exact Normalized_transfer x _ _ _ _ σ1 σ2 (fun _ => False) (· = p) v (le_refl _)
    (le_refl _) f2 (fun _ hf => hf.elim) (fun q hq => by rw [hq]; exact hp) n1

/-- A chain of `ArrayAdd` on a handle appends, in order, the normal form of
each item, and touches no other cell that existed. -/
theorem addAll_cell (xs : List Iface) (σ : Heap) (q a o : Nat) (ys0 : List Iface)
    (h : σ.arrays[q]? = some ys0) (hq : q < a) (ha : a ≤ σ.arrays.length)
    (ho : o ≤ σ.objects.length) (hk : listKeysNodup xs = true)
    (hn : listNoNilPtr xs = true) :
    ∃ σ' ws, addAll σ ⟨.jsonArray q⟩ xs = .ok σ' ∧ σ'.arrays[q]? = some (ys0 ++ ws) ∧
      NormalizedList a o σ' xs ws ∧ Frame σ σ' (· = q) (fun _ => False) := by
  induction xs generalizing σ ys0 with
  | nil =>
    exact ⟨σ, [], rfl, by simpa using h, by simp only [NormalizedList], Frame_refl _ _ _⟩
  | cons x rest ih =>
    simp only [listKeysNodup, Bool.and_eq_true] at hk
    simp only [listNoNilPtr, Bool.and_eq_true] at hn
    obtain ⟨σ1, v, hadd, hc, n1, f1⟩ := ArrayAdd_normalized σ q ys0 x h hk.1 hn.1
    obtain ⟨σ2, ws, hall, hc2, nl, f2⟩ :=
      ih σ1 (ys0 ++ [v]) hc (le_trans ha f1.1) (le_trans ho f1.2.1) hk.2 hn.2
    refine ⟨σ2, v :: ws, by simp only [addAll, hadd, hall], by simpa using hc2, ?_,
      Frame_trans f1 f2⟩
    simp only [NormalizedList]
    exact ⟨v, ws, rfl,
      Normalized_transfer x _ _ a o σ1 σ2 (· = q) (fun _ => False) v ha ho f2
        (fun r hr => by rw [hr]; omega) (fun _ hf => hf.elim) n1, nl⟩

/-- A chain of `ObjectAdd` on a handle sets, in order, each key to the normal
form of its item, and touches no other cell that existed. -/
theorem setAll_cell (kvs : List (String × Iface)) (σ : Heap) (q a o : Nat)
    (m0 : List (String × Iface)) (h : σ.objects[q]? = some m0) (hq : q < o)
    (ha : a ≤ σ.arrays.length) (ho : o ≤ σ.objects.length)
    (hk : entriesKeysNodup kvs = true) (hn : entriesNoNilPtr kvs = true) :
    ∃ σ' ws, setAll σ ⟨.jsonObject q⟩ kvs = .ok σ' ∧
      σ'.objects[q]? = some (setEntries m0 ws) ∧
      NormalizedEntries a o σ' kvs ws ∧
      Frame σ σ' (fun _ => False) (· = q) := by
  induction kvs generalizing σ m0 with
  | nil =>
    exact ⟨σ, [], rfl, by simpa using h, by simp only [NormalizedEntries], Frame_refl _ _ _⟩
  | cons e rest ih =>
    obtain ⟨k, x⟩ := e
    simp only [entriesKeysNodup, Bool.and_eq_true] at hk
    simp only [entriesNoNilPtr, Bool.and_eq_true] at hn
    obtain ⟨σ1, v, hadd, hc, n1, f1⟩ := ObjectAdd_normalized σ q m0 k x h hk.1 hn.1
    obtain ⟨σ2, ws, hall, hc2, nl, f2⟩ :=
      ih σ1 (mapSet m0 k v) hc (le_trans ha f1.1) (le_trans ho f1.2.1) hk.2 hn.2
    refine ⟨σ2, (k, v) :: ws, by simp only [setAll, hadd, hall], by simpa using hc2, ?_,
      Frame_trans f1 f2⟩
    simp only [NormalizedEntries]
    exact ⟨v, ws, rfl,
      Normalized_transfer x _ _ a o σ1 σ2 (fun _ => False) (· = q) v ha ho f2
        (fun _ hf => hf.elim) (fun r hr => by rw [hr]; omega) n1, nl⟩

/-- C15 fails when an item of the chain is a nil pointer: after
`ObjectNewArray("tags")` on the empty object, the chain `ArrayAdd("x")`,
`ArrayAdd((*[]interface{})(nil))` on the returned handle panics at the second
call instead of leaving `["x", ...]` to be observed; likewise the chain
`ObjectAdd("a", 1)`, `ObjectAdd("b", [(*map[string]interface{})(nil)])` on the
handle `ObjectNewObject("sub")` returns. -/
theorem nested_containers_live_counterexample :
    (QJson.ObjectNewArray ⟨[], [[]]⟩ ⟨.jsonObject 0⟩ "tags"
        = .ok (⟨[[]], [[("tags", .jsonArray 0)]]⟩, ⟨.jsonArray 0⟩) ∧
      addAll ⟨[[]], [[("tags", .jsonArray 0)]]⟩ ⟨.jsonArray 0⟩ [.string "x", .nilSlicePtr]
        = .error .nilDereference) ∧
    (QJson.ObjectNewObject ⟨[], [[]]⟩ ⟨.jsonObject 0⟩ "sub"
        = .ok (⟨[], [[("sub", .jsonObject 1)], []]⟩, ⟨.jsonObject 1⟩) ∧
      setAll ⟨[], [[("sub", .jsonObject 1)], []]⟩ ⟨.jsonObject 1⟩
          [("a", .int 1), ("b", .slice [.nilMapPtr])]
        = .error .nilDereference) :=
  ⟨⟨rfl, rfl⟩, ⟨rfl, rfl⟩⟩

/-- C15, amended: nested containers created in place are live, for items that
hold no nil pointer. On an Object-kind value `v` with any key `k`,
`ObjectNewArray` returns a handle `h` on an empty array, and after any chain
`ArrayAdd(h, x1)`, ..., `ArrayAdd(h, xn)` of items that hold no nil pointer to
a slice or map, at any depth (and whose maps list each key once, as Go maps
do), a later `ObjectGet(v, k)` returns the same pointer, whose cell lists, in
insertion order, exactly the normal forms of `x1`, ..., `xn`: each item itself
unless it is a raw slice or map (or a pointer to one), and then the wrapped
container with the same elements, built from cells that did not exist before.
Likewise for `ObjectNewObject` with a chain of `ObjectAdd` (the cell is the
map the writes leave, last write for a key winning), and for `ArrayNewArray` /
`ArrayNewObject` read back with `ArrayGet` at the old length. Run from
`NewObjectJSON`, the calls `ObjectAdd("name", "a")`, `ObjectNewArray("tags")`,
`ArrayAdd("x")`, `ArrayAdd("y")` leave the tree `{name: "a", tags: ["x", "y"]}`. -/
theorem nested_containers_live (σ : Heap) (p : Nat) :
    (∀ m k xs, σ.objects[p]? = some m → listKeysNodup xs = true → listNoNilPtr xs = true →
      ∃ σ1 q, QJson.ObjectNewArray σ ⟨.jsonObject p⟩ k = .ok (σ1, ⟨.jsonArray q⟩) ∧
        σ1.arrays[q]? = some [] ∧
        ∃ σ2 ws, addAll σ1 ⟨.jsonArray q⟩ xs = .ok σ2 ∧
          QJson.ObjectGet σ2 ⟨.jsonObject p⟩ k = .ok ⟨.jsonArray q⟩ ∧
          σ2.arrays[q]? = some ws ∧
          NormalizedList σ1.arrays.length σ1.objects.length σ2 xs ws) ∧
    (∀ m k kvs, σ.objects[p]? = some m → entriesKeysNodup kvs = true →
      entriesNoNilPtr kvs = true →
      ∃ σ1 q, QJson.ObjectNewObject σ ⟨.jsonObject p⟩ k = .ok (σ1, ⟨.jsonObject q⟩) ∧
        σ1.objects[q]? = some [] ∧
        ∃ σ2 ws, setAll σ1 ⟨.jsonObject q⟩ kvs = .ok σ2 ∧
          QJson.ObjectGet σ2 ⟨.jsonObject p⟩ k = .ok ⟨.jsonObject q⟩ ∧
          σ2.objects[q]? = some (setEntries [] ws) ∧
          NormalizedEntries σ1.arrays.length σ1.objects.length σ2 kvs ws) ∧
    (∀ ys xs, σ.arrays[p]? = some ys → listKeysNodup xs = true → listNoNilPtr xs = true →
      ∃ σ1 q, QJson.ArrayNewArray σ ⟨.jsonArray p⟩ = .ok (σ1, ⟨.jsonArray q⟩) ∧
        σ1.arrays[q]? = some [] ∧
        ∃ σ2 ws, addAll σ1 ⟨.jsonArray q⟩ xs = .ok σ2 ∧
          QJson.ArrayGet σ2 ⟨.jsonArray p⟩ ys.length = .ok ⟨.jsonArray q⟩ ∧
          σ2.arrays[q]? = some ws ∧
          NormalizedList σ1.arrays.length σ1.objects.length σ2 xs ws) ∧
    (∀ ys kvs, σ.arrays[p]? = some ys → entriesKeysNodup kvs = true →
      entriesNoNilPtr kvs = true →
      ∃ σ1 q, QJson.ArrayNewObject σ ⟨.jsonArray p⟩ = .ok (σ1, ⟨.jsonObject q⟩) ∧
        σ1.objects[q]? = some [] ∧
        ∃ σ2 ws, setAll σ1 ⟨.jsonObject q⟩ kvs = .ok σ2 ∧
          QJson.ArrayGet σ2 ⟨.jsonArray p⟩ ys.length = .ok ⟨.jsonObject q⟩ ∧
          σ2.objects[q]? = some (setEntries [] ws) ∧
          NormalizedEntries σ1.arrays.length σ1.objects.length σ2 kvs ws) ∧
    (QJson.ObjectAdd (NewObjectJSON ⟨[], []⟩).1 (NewObjectJSON ⟨[], []⟩).2 "name" (.string "a")
        = .ok (⟨[], [[("name", .string "a")]]⟩, ⟨.jsonObject 0⟩) ∧
      QJson.ObjectNewArray ⟨[], [[("name", .string "a")]]⟩ ⟨.jsonObject 0⟩ "tags"
        = .ok (⟨[[]], [[("name", .string "a"), ("tags", .jsonArray 0)]]⟩, ⟨.jsonArray 0⟩) ∧
      addAll ⟨[[]], [[("name", .string "a"), ("tags", .jsonArray 0)]]⟩ ⟨.jsonArray 0⟩
          [.string "x", .string "y"]
        = .ok ⟨[[.string "x", .string "y"]],
            [[("name", .string "a"), ("tags", .jsonArray 0)]]⟩) := by
  refine ⟨fun m k xs h hk hn => ?_, fun m k kvs h hk hn => ?_, fun ys xs h hk hn => ?_,
    fun ys kvs h hk hn => ?_, rfl, rfl, rfl⟩
  · obtain ⟨σ1, h1, hc1, hq1, _⟩ := ObjectNewArray_cell σ p m k h
    obtain ⟨σ2, ws, hall, hc2, nl, f2⟩ :=
      addAll_cell xs σ1 σ.arrays.length σ1.arrays.length σ1.objects.length [] hq1
        (cell_lt_arrays hq1) (le_refl _) (le_refl _) hk hn
    refine ⟨σ1, σ.arrays.length, h1, hq1, σ2, ws, hall, ?_, by simpa using hc2, nl⟩
    exact ObjectGet_of_cell σ2 p _ k _ (cell_of_frame_objects f2 hc1 (fun hf => hf))
      (mapGet_mapSet_same m k _)
  · have hp := cell_lt_objects h
    obtain ⟨σ1, h1, hc1, hq1, _⟩ := ObjectNewObject_cell σ p m k h
    obtain ⟨σ2, ws, hall, hc2, nl, f2⟩ :=
      setAll_cell kvs σ1 σ.objects.length σ1.arrays.length σ1.objects.length [] hq1
        (cell_lt_objects hq1) (le_refl _) (le_refl _) hk hn
    refine ⟨σ1, σ.objects.length, h1, hq1, σ2, ws, hall, ?_, hc2, nl⟩
    exact ObjectGet_of_cell σ2 p _ k _
      (cell_of_frame_objects f2 hc1 (fun hf : p = σ.objects.length => by omega))
      (mapGet_mapSet_same m k _)
  · have hp := cell_lt_arrays h
    obtain ⟨σ1, h1, hc1, hq1, _⟩ := ArrayNewArray_cell σ p ys h
    obtain ⟨σ2, ws, hall, hc2, nl, f2⟩ :=
      addAll_cell xs σ1 σ.arrays.length σ1.arrays.length σ1.objects.length [] hq1
        (cell_lt_arrays hq1) (le_refl _) (le_refl _) hk hn
    refine ⟨σ1, σ.arrays.length, h1, hq1, σ2, ws, hall, ?_, by simpa using hc2, nl⟩
    exact ArrayGet_of_cell σ2 p _ ys.length _
      (cell_of_frame_arrays f2 hc1 (fun hf : p = σ.arrays.length => by omega)) (by simp)
  · obtain ⟨σ1, h1, hc1, hq1, _⟩ := ArrayNewObject_cell σ p ys h
    obtain ⟨σ2, ws, hall, hc2, nl, f2⟩ :=
      setAll_cell kvs σ1 σ.objects.length σ1.arrays.length σ1.objects.length [] hq1
        (cell_lt_objects hq1) (le_refl _) (le_refl _) hk hn
    refine ⟨σ1, σ.objects.length, h1, hq1, σ2, ws, hall, ?_, hc2, nl⟩
    exact ArrayGet_of_cell σ2 p _ ys.length _ (cell_of_frame_arrays f2 hc1 (fun hf => hf))
      (by simp)

/-- C15 at a concrete input: a nested array created under `"tags"` in
`{name: "a"}` and filled with `"x"` and the raw slice `[true]`. -/
theorem nested_containers_live_witness :
    ((⟨[], [[("name", .string "a")]]⟩ : Heap).objects[0]? = some [("name", .string "a")] ∧
      listKeysNodup [.string "x", .slice [.bool true]] = true ∧
      listNoNilPtr [.string "x", .slice [.bool true]] = true) ∧
    ∃ σ1 q, QJson.ObjectNewArray ⟨[], [[("name", .string "a")]]⟩ ⟨.jsonObject 0⟩ "tags"
        = .ok (σ1, ⟨.jsonArray q⟩) ∧
      σ1.arrays[q]? = some [] ∧
      ∃ σ2 ws, addAll σ1 ⟨.jsonArray q⟩ [.string "x", .slice [.bool true]] = .ok σ2 ∧
        QJson.ObjectGet σ2 ⟨.jsonObject 0⟩ "tags" = .ok ⟨.jsonArray q⟩ ∧
        σ2.arrays[q]? = some ws ∧
        NormalizedList σ1.arrays.length σ1.objects.length σ2
          [.string "x", .slice [.bool true]] ws :=
  ⟨⟨rfl, rfl, rfl⟩, (nested_containers_live ⟨[], [[("name", .string "a")]]⟩ 0).1
    [("name", .string "a")] "tags" [.string "x", .slice [.bool true]] rfl rfl rfl⟩

end qjson
